import Mathlib

/-!
# Memory placement simulator (`fit.c`): embedding and verified properties

The doubly linked list of `MemNode`s headed by the global `memory` is embedded
as a `List MemNode` in list order.  A pointer to a node is the position of the
node in the list; a position past the end of the list plays the role of `NULL`.
The `next` / `previous` fields are therefore implicit: the successor of
position `i` is `i + 1`, the predecessor of position `i + 1` is `i`, and the
head has no predecessor.  Operations that dereference `NULL` in the source
return `none`.

C `int` values are embedded as `Int`.  Sizes, offsets and service times are
used without wrap-around; the totals of the final summary and the product
`unserviced * 100`, which leaves the 32-bit range on workloads with long
service times, are computed with 32-bit wrap-around (`wrap32`).
-/

namespace Fit

/-! ## Constants (`#define`s of `fit.c`) -/

/-- Memory size `MEMSIZE`. -/
def MEMSIZE : Int := 100

/-- An empty area of memory: `HOLE`. -/
def HOLE : Int := -1

/-- Process status before it has arrived. -/
def NOTARRIVED : Int := 0

/-- Process status: arrived but waiting. -/
def WAITING : Int := 1

/-- Process status: running in memory. -/
def INMEMORY : Int := 2

/-- Process status: finished running. -/
def FINISHED : Int := 3

/-! ## Data model -/

/-- Process record (`typedef struct { ... } Process`). -/
structure Process where
  pid : Int
  arrival : Int
  size : Int
  service : Int
  status : Int
deriving DecidableEq, Repr

/-- Memory node (`typedef struct memnode { ... } MemNode`); the `next` and
`previous` pointers are given by the position of the node in the list. -/
structure MemNode where
  pid : Int
  start : Int
  size : Int
deriving DecidableEq, Repr

/-! ## Placement algorithms -/

/-- The test `m->pid == HOLE && m->size >= proc->size` shared by the scans. -/
def fits (size : Int) (m : MemNode) : Bool :=
  decide (m.pid = HOLE) && decide (m.size ≥ size)

/-- Loop of `first_fit`: `rest` is the part of the list from node `m` on and
`i` is the position of `m`. -/
def first_fit_loop (size : Int) : List MemNode → Nat → Option Nat
  | [], _ => none
  | x :: rest, i => if fits size x then some i else first_fit_loop size rest (i + 1)

/-- Source `first_fit(proc, m)`: the first hole that is big enough, scanning
from node `m`. -/
def first_fit (proc : Process) (mem : List MemNode) (m : Nat) : Option Nat :=
  first_fit_loop proc.size (mem.drop m) m

/-- First loop of `next_fit` (`while (m)`), from the cursor to the tail. -/
def next_fit_forward (size : Int) : List MemNode → Nat → Option Nat
  | [], _ => none
  | x :: rest, i => if fits size x then some i else next_fit_forward size rest (i + 1)

/-- Second loop of `next_fit` (`m = memory; while (m != current)`), from the
head up to the node the search started at. -/
def next_fit_wrap (size : Int) (current : Nat) : List MemNode → Nat → Option Nat
  | [], _ => none
  | x :: rest, i =>
    if i = current then none
    else if fits size x then some i
    else next_fit_wrap size current rest (i + 1)

/-- Source `next_fit(proc, m)`.  The result is the returned node together with
the value of the global `last_location` after the call (`last` before it). -/
def next_fit (proc : Process) (mem : List MemNode) (m : Nat) (last : Nat) :
    Option Nat × Nat :=
  match next_fit_forward proc.size (mem.drop m) m with
  | some i => (some i, i)
  | none =>
    match next_fit_wrap proc.size m mem 0 with
    | some i => (some i, i)
    | none => (none, last)

/-- Loop of `best_fit`, carrying the locals `best` and `least_diff`. -/
def best_fit_loop (size : Int) : List MemNode → Nat → Option Nat → Int → Option Nat
  | [], _, best, _ => best
  | x :: rest, i, best, least_diff =>
    if fits size x then
      let diff := x.size - size
      if diff < least_diff then best_fit_loop size rest (i + 1) (some i) diff
      else best_fit_loop size rest (i + 1) best least_diff
    else best_fit_loop size rest (i + 1) best least_diff

/-- Source `best_fit(proc, m)`: `best = NULL`, `least_diff = 100`. -/
def best_fit (proc : Process) (mem : List MemNode) (m : Nat) : Option Nat :=
  best_fit_loop proc.size (mem.drop m) m none 100

/-- Source `worst_fit(proc, m)`.  Its body is empty (`/* here's one for you to
do! */`): control reaches the closing brace of a non-void function and no value
is returned, so the call has no defined result. -/
def worst_fit (_proc : Process) (_mem : List MemNode) (_m : Nat) : Option (Option Nat) :=
  none

/-! ## Mutation of the memory list -/

/-- Source `insert(proc, hole)`: a new node for the process is linked in just
before `hole`, and `hole` is shrunk from the left.  The result is the new list
and the returned node (the new node, which takes the position of `hole`). -/
def insert (proc : Process) (mem : List MemNode) (hole : Nat) :
    Option (List MemNode × Nat) :=
  match mem[hole]? with
  | none => none
  | some h =>
    let m : MemNode := { pid := proc.pid, start := h.start, size := proc.size }
    let h' : MemNode := { h with start := h.start + proc.size, size := h.size - proc.size }
    some (mem.take hole ++ m :: h' :: mem.drop (hole + 1), hole)

/-- Search loop of `release`: `while (m->pid != pid) m = m->next;`.  Running
off the end of the list dereferences `NULL`. -/
def find_entry (pid : Int) : List MemNode → Nat → Option Nat
  | [], _ => none
  | x :: rest, i => if x.pid = pid then some i else find_entry pid rest (i + 1)

/-- Source `release(pid)`.  The result is the new list and the returned node.
`none` stands for a `NULL` dereference (entry not found, or `n->pid` read at the
head of a one-node list). -/
def release (pid : Int) (mem : List MemNode) : Option (List MemNode × Nat) :=
  match find_entry pid mem 0 with
  | none => none
  | some i =>
    match mem[i]? with
    | none => none
    | some m =>
      let n := mem[i + 1]?
      let p := if i = 0 then none else mem[i - 1]?
      match p with
      | none =>
        match n with
        | none => none
        | some n =>
          if n.pid = HOLE then
            some ({ n with size := n.size + m.size, start := m.start } :: mem.drop (i + 2), 0)
          else
            some (mem.set i { m with pid := HOLE }, i)
      | some p =>
        match n with
        | none =>
          if p.pid = HOLE then
            some (mem.take (i - 1) ++ [{ p with size := p.size + m.size }], i - 1)
          else
            some (mem.set i { m with pid := HOLE }, i)
        | some n =>
          if n.pid = HOLE then
            if p.pid = HOLE then
              some (mem.take (i - 1) ++
                { p with size := p.size + m.size + n.size } :: mem.drop (i + 2), i - 1)
            else
              some (mem.take i ++
                { n with size := n.size + m.size, start := m.start } :: mem.drop (i + 2), i)
          else
            if p.pid = HOLE then
              some (mem.take (i - 1) ++
                { p with size := p.size + m.size } :: mem.drop (i + 1), i - 1)
            else
              some (mem.set i { m with pid := HOLE }, i)


/-! ## Invariants of the memory list -/

/-- A relation holds between every two neighbouring nodes of the list. -/
def adjacent (R : MemNode → MemNode → Prop) : List MemNode → Prop
  | [] => True
  | [_] => True
  | a :: b :: rest => R a b ∧ adjacent R (b :: rest)

/-- Decision procedure for `adjacent`. -/
instance decAdjacent (R : MemNode → MemNode → Prop) [DecidableRel R] :
    ∀ l : List MemNode, Decidable (adjacent R l)
  | [] => isTrue trivial
  | [_] => isTrue trivial
  | a :: b :: rest =>
    have : Decidable (adjacent R (b :: rest)) := decAdjacent R (b :: rest)
    inferInstanceAs (Decidable (R a b ∧ adjacent R (b :: rest)))

/-- Segments are pairwise contiguous: `seg[i].start + seg[i].size = seg[i+1].start`. -/
def pairwiseContiguous (mem : List MemNode) : Prop :=
  adjacent (fun a b : MemNode => a.start + a.size = b.start) mem

/-- Start offset of the first segment. -/
def firstStart (mem : List MemNode) : Option Int :=
  mem.head?.map (fun x => x.start)

/-- End offset (`start + size`) of the last segment. -/
def lastEnd (mem : List MemNode) : Option Int :=
  mem.getLast?.map (fun x => x.start + x.size)

/-- Layout invariant: pairwise contiguous, first segment at 0, last segment
ends at `total`. -/
def Layout (mem : List MemNode) (total : Int) : Prop :=
  pairwiseContiguous mem ∧ firstStart mem = some 0 ∧ lastEnd mem = some total

/-- Start offsets are in ascending order along the list. -/
def ascendingStarts (mem : List MemNode) : Prop :=
  adjacent (fun a b : MemNode => a.start ≤ b.start) mem

/-- No segment has a negative size. -/
def nonnegSizes (mem : List MemNode) : Prop :=
  ∀ x ∈ mem, 0 ≤ x.size

/-- The pid owns exactly one segment of the list. -/
def ownsExactlyOne (pid : Int) (mem : List MemNode) : Prop :=
  mem.countP (fun x => decide (x.pid = pid)) = 1

/-- No two neighbouring segments are both free. -/
def noAdjacentFree (mem : List MemNode) : Prop :=
  adjacent (fun a b : MemNode => ¬ (a.pid = HOLE ∧ b.pid = HOLE)) mem

/-- No segment has size zero. -/
def noZeroLength (mem : List MemNode) : Prop :=
  ∀ x ∈ mem, x.size ≠ 0

/-- Sum of all segment sizes. -/
def totalSize (mem : List MemNode) : Int :=
  (mem.map (fun x => x.size)).sum

/-- The pid of the last segment of the list. -/
def lastPid (mem : List MemNode) : Option Int :=
  mem.getLast?.map (fun x => x.pid)

/-- The last segment of the list is free. -/
def lastFree (mem : List MemNode) : Prop :=
  lastPid mem = some HOLE

instance (mem : List MemNode) : Decidable (lastFree mem) :=
  inferInstanceAs (Decidable (lastPid mem = some HOLE))

/-- The segments tile the range from `s` to `t` in list order. -/
def spans (s : Int) : List MemNode → Int → Prop
  | [], t => s = t
  | x :: rest, t => x.start = s ∧ spans (s + x.size) rest t

instance (mem : List MemNode) : Decidable (pairwiseContiguous mem) :=
  inferInstanceAs (Decidable (adjacent _ mem))

instance (mem : List MemNode) (total : Int) : Decidable (Layout mem total) :=
  inferInstanceAs (Decidable (_ ∧ _ ∧ _))

instance (mem : List MemNode) : Decidable (ascendingStarts mem) :=
  inferInstanceAs (Decidable (adjacent _ mem))

instance (mem : List MemNode) : Decidable (nonnegSizes mem) :=
  inferInstanceAs (Decidable (∀ x ∈ mem, 0 ≤ x.size))

instance (pid : Int) (mem : List MemNode) : Decidable (ownsExactlyOne pid mem) :=
  inferInstanceAs (Decidable (_ = 1))

instance (mem : List MemNode) : Decidable (noAdjacentFree mem) :=
  inferInstanceAs (Decidable (adjacent _ mem))

instance (mem : List MemNode) : Decidable (noZeroLength mem) :=
  inferInstanceAs (Decidable (∀ x ∈ mem, x.size ≠ 0))

/-! ## Sequences of operations -/

/-- One mutation of the memory list, as issued by the tick loop of `main`:
`insert(&process[i], m)` or `release(i)`. -/
inductive Op where
  | ins (proc : Process) (hole : Nat)
  | rel (pid : Int)

/-- Effect of one operation on the memory list (`none` when the call
dereferences `NULL`). -/
def applyOp : Op → List MemNode → Option (List MemNode)
  | Op.ins proc hole, mem => (insert proc mem hole).map Prod.fst
  | Op.rel pid, mem => (release pid mem).map Prod.fst

/-- Effect of a sequence of operations, applied from left to right. -/
def runOps : List Op → List MemNode → Option (List MemNode)
  | [], mem => some mem
  | op :: ops, mem => (applyOp op mem).bind (runOps ops)

/-! ## Simulation driver (`main`) -/

/-- Total time to run: `TOTALTIME`. -/
def TOTALTIME : Nat := 100

/-- Command line selector `fit_type`: `f`, `n`, `b` or `w`. -/
inductive FitType where
  | f
  | n
  | b
  | w
deriving DecidableEq, Repr

/-- Message passed to `report`. -/
inductive Message where
  | START
  | ARRIVED
  | FINISHED
  | INMEMORY
  | END
deriving DecidableEq, Repr

/-- One call `report(time, message, pid)`. -/
structure Event where
  time : Int
  message : Message
  pid : Int
deriving DecidableEq, Repr

/-- The globals `memory` and `last_location`. -/
structure Globals where
  memory : List MemNode
  last_location : Nat
deriving DecidableEq, Repr

/-- The state the tick loop works on: the array `process` and the memory
globals.  The number of processes `N` (50 in the source) is the length of the
list; a loop `for (i = 0; i < N; i++)` over `process[i]` is a traversal of the
list that carries the index `i`. -/
structure Sim where
  process : List Process
  globals : Globals
deriving DecidableEq, Repr

/-- Input loop of `main`: process `i` gets `pid = i`, the three numbers read by
`scanf` (arrival, size, service) and status `NOTARRIVED`; `i` is the index of
the first record of `input`. -/
def read_processes : Nat → List (Int × Int × Int) → List Process
  | _, [] => []
  | i, (arrival, size, service) :: rest =>
    { pid := (i : Int), arrival := arrival, size := size, service := service,
      status := NOTARRIVED } :: read_processes (i + 1) rest

/-- State of `main` when the tick loop starts: one big hole, `last_location`
at it, the processes as read. -/
def init_sim (input : List (Int × Int × Int)) : Sim :=
  { process := read_processes 0 input,
    globals := { memory := [⟨HOLE, 0, MEMSIZE⟩], last_location := 0 } }

/-- Dispatch through the function pointer `fit_algorithm`.  The result is the
returned node and the value of `last_location` after the call; `none` when the
call has no defined result (`worst_fit`). -/
def fit_algorithm (ft : FitType) (proc : Process) (mem : List MemNode) (start last : Nat) :
    Option (Option Nat × Nat) :=
  match ft with
  | FitType.f => some (first_fit proc mem start, last)
  | FitType.n => some (next_fit proc mem start last)
  | FitType.b => some (best_fit proc mem start, last)
  | FitType.w => (worst_fit proc mem start).map (fun r => (r, last))

/-- First `if` of the first loop of a tick: check for a new arrival. -/
def arrival_check (t : Int) (i : Nat) (p : Process) : Process × List Event :=
  if p.arrival ≤ t ∧ p.status = NOTARRIVED then
    ({ p with status := WAITING }, [⟨t, Message.ARRIVED, (i : Int)⟩])
  else (p, [])

/-- Second `if` of the first loop of a tick: check for a done process and
release its memory. -/
def completion_check (t : Int) (i : Nat) (p : Process) (g : Globals) :
    Option (Process × Globals × List Event) :=
  if p.service = 0 ∧ p.status ≠ FINISHED then
    match release (i : Int) g.memory with
    | none => none
    | some (mem, r) =>
      some ({ p with status := FINISHED }, ⟨mem, r⟩, [⟨t, Message.FINISHED, (i : Int)⟩])
  else some (p, g, [])

/-- First loop of a tick (`for (i = 0; i < N; i++)` with both checks in its
body), over the processes from index `i` on. -/
def arrivals_completions (t : Int) : Nat → List Process → Globals →
    Option (List Process × Globals × List Event)
  | _, [], g => some ([], g, [])
  | i, p :: ps, g =>
    match completion_check t i (arrival_check t i p).1 g with
    | none => none
    | some (p2, g2, e2) =>
      match arrivals_completions t (i + 1) ps g2 with
      | none => none
      | some (ps2, g3, es) => some (p2 :: ps2, g3, (arrival_check t i p).2 ++ e2 ++ es)

/-- Body of the second loop of a tick: if waiting, try to fit the process in
memory. -/
def placement_check (ft : FitType) (t : Int) (i : Nat) (p : Process) (g : Globals) :
    Option (Process × Globals × List Event) :=
  if p.status = WAITING then
    match fit_algorithm ft p g.memory (if ft = FitType.n then g.last_location else 0)
        g.last_location with
    | none => none
    | some (none, last) => some (p, ⟨g.memory, last⟩, [])
    | some (some m, _) =>
      match insert p g.memory m with
      | none => none
      | some (mem, r) =>
        some ({ p with status := INMEMORY }, ⟨mem, r⟩, [⟨t, Message.INMEMORY, (i : Int)⟩])
  else some (p, g, [])

/-- Second loop of a tick, over the processes from index `i` on. -/
def placements (ft : FitType) (t : Int) : Nat → List Process → Globals →
    Option (List Process × Globals × List Event)
  | _, [], g => some ([], g, [])
  | i, p :: ps, g =>
    match placement_check ft t i p g with
    | none => none
    | some (p2, g2, e2) =>
      match placements ft t (i + 1) ps g2 with
      | none => none
      | some (ps2, g3, es) => some (p2 :: ps2, g3, e2 ++ es)

/-- Body of the third loop of a tick: give service to a process in memory. -/
def service_check (p : Process) : Process :=
  if p.status = INMEMORY then { p with service := p.service - 1 } else p

/-- Third loop of a tick. -/
def services (ps : List Process) : List Process :=
  ps.map service_check

/-- One iteration of the time loop, at `current_time = t`: the state after it
and the events reported during it, in order. -/
def tick (ft : FitType) (t : Int) (s : Sim) : Option (Sim × List Event) :=
  match arrivals_completions t 0 s.process s.globals with
  | none => none
  | some (ps1, g1, e1) =>
    match placements ft t 0 ps1 g1 with
    | none => none
    | some (ps2, g2, e2) => some (⟨services ps2, g2⟩, e1 ++ e2)

/-- The first `k` iterations of the time loop (`current_time = 0, ..., k - 1`). -/
def run_ticks (ft : FitType) : Nat → Sim → Option Sim
  | 0, s => some s
  | k + 1, s =>
    match run_ticks ft k s with
    | none => none
    | some s1 => (tick ft (k : Int) s1).map Prod.fst

/-- Value of a 32-bit `int` after an arithmetic result `x` wrapped around into
the range from `-2^31` to `2^31 - 1`. -/
def wrap32 (x : Int) : Int :=
  (x + 2147483648) % 4294967296 - 2147483648

/-- Accumulation loop `total += process[i].service` over the table, starting
from 0, in 32-bit arithmetic: `required_service` when run over the processes as
read, `unserviced` when run after the time loop. -/
def total_service (ps : List Process) : Int :=
  ps.foldl (fun total p => wrap32 (total + p.service)) 0

/-- The expression `unserviced * 100 / required_service` of the final `printf`:
the product is a 32-bit `int`, the division truncates toward zero; a zero
divisor has no result, nor has `INT_MIN / -1`. -/
def percent_unserviced (unserviced required_service : Int) : Option Int :=
  if required_service = 0 then none
  else if wrap32 (unserviced * 100) = -2147483648 ∧ required_service = -1 then none
  else some (Int.tdiv (wrap32 (unserviced * 100)) required_service)

/-- Final summary of `main` for a given input: total unserviced time, total
service required and percent unserviced. -/
def summary (ft : FitType) (input : List (Int × Int × Int)) : Option (Int × Int × Int) :=
  match run_ticks ft TOTALTIME (init_sim input) with
  | none => none
  | some s =>
    match percent_unserviced (total_service s.process)
        (total_service (read_processes 0 input)) with
    | none => none
    | some pct =>
      some (total_service s.process, total_service (read_processes 0 input), pct)

/-! ## Invariants of the simulation -/

/-- The segments of the memory list that the pid owns, in list order. -/
def segsOf (pid : Int) (mem : List MemNode) : List MemNode :=
  mem.filter (fun x => decide (x.pid = pid))

/-- Process `p` at index `i` of the table and the memory list agree: if `p` is
`INMEMORY`, pid `i` owns exactly one segment, of size `p.size`; otherwise pid
`i` owns no segment. -/
def ownsFor (i : Nat) (p : Process) (mem : List MemNode) : Prop :=
  (p.status = INMEMORY → ∃ x, segsOf (i : Int) mem = [x] ∧ x.size = p.size) ∧
  (p.status ≠ INMEMORY → segsOf (i : Int) mem = [])

/-- `ownsFor` for all processes of the table from index `i` on. -/
def ownership : Nat → List Process → List MemNode → Prop
  | _, [], _ => True
  | i, p :: ps, mem => ownsFor i p mem ∧ ownership (i + 1) ps mem

/-- The `pid` field of each process is its index in the table (from index `i`
on), as assigned by the input loop. -/
def pidsFrom : Nat → List Process → Prop
  | _, [] => True
  | i, p :: ps => p.pid = (i : Int) ∧ pidsFrom (i + 1) ps

/-- Service and status of a process at the start of a tick: the remaining
service is not negative, it is at least 1 while the process has not been
placed, and the status is one of the four status values. -/
def procOk (p : Process) : Prop :=
  0 ≤ p.service ∧
  (p.status = NOTARRIVED ∨ p.status = WAITING → 1 ≤ p.service) ∧
  (p.status = NOTARRIVED ∨ p.status = WAITING ∨ p.status = INMEMORY ∨ p.status = FINISHED)

/-- As `procOk`, and a process in memory has service left (state between the
first loop and the service loop of a tick). -/
def procReady (p : Process) : Prop :=
  procOk p ∧ (p.status = INMEMORY → 1 ≤ p.service)

/-- Every process of the table agrees with the memory list: a pid owns a
segment if and only if its process is `INMEMORY`, and then exactly one, of the
size of the process. -/
def ownsAll (ps : List Process) (mem : List MemNode) : Prop :=
  ∀ (i : Nat) (p : Process), ps[i]? = some p → ownsFor i p mem

/-- Invariant of the simulation at the start of a tick. -/
def SimInv (s : Sim) : Prop :=
  pidsFrom 0 s.process ∧ (∀ p ∈ s.process, procOk p) ∧
  ownership 0 s.process s.globals.memory ∧ lastFree s.globals.memory

/-- Every event of kind `a` comes before every event of kind `b`: no `b` event
is followed, anywhere later in the sequence, by an `a` event. -/
def precedes (a b : Message) (es : List Event) : Prop :=
  es.Pairwise (fun x y => ¬ (x.message = b ∧ y.message = a))

/-- Order of the events of the first loop of a tick: ascending pid, and for one
pid `ARRIVED` before `FINISHED`. -/
def scanOrder (x y : Event) : Prop :=
  x.pid < y.pid ∨ (x.pid = y.pid ∧ x.message = Message.ARRIVED ∧ y.message = Message.FINISHED)

/-! ## The four passes as the specification words them -/

/-- Arrival pass of the specification: a full scan that only performs the
arrival check. -/
def arrival_pass (t : Int) : Nat → List Process → List Process × List Event
  | _, [] => ([], [])
  | i, p :: ps =>
    ((arrival_check t i p).1 :: (arrival_pass t (i + 1) ps).1,
      (arrival_check t i p).2 ++ (arrival_pass t (i + 1) ps).2)

/-- Completion pass of the specification: a full scan that only performs the
completion check. -/
def completion_pass (t : Int) : Nat → List Process → Globals →
    Option (List Process × Globals × List Event)
  | _, [], g => some ([], g, [])
  | i, p :: ps, g =>
    match completion_check t i p g with
    | none => none
    | some (p2, g2, e2) =>
      match completion_pass t (i + 1) ps g2 with
      | none => none
      | some (ps2, g3, es) => some (p2 :: ps2, g3, e2 ++ es)

/-- Arrival pass followed by completion pass. -/
def arrival_then_completion (t : Int) (ps : List Process) (g : Globals) :
    Option (List Process × Globals × List Event) :=
  match completion_pass t 0 (arrival_pass t 0 ps).1 g with
  | none => none
  | some (ps2, g2, es) => some (ps2, g2, (arrival_pass t 0 ps).2 ++ es)

/-! ## Sample data -/

/-- A four-segment memory of total size 100: hole, process 1, hole, process 3. -/
def memSample : List MemNode :=
  [⟨HOLE, 0, 10⟩, ⟨1, 10, 50⟩, ⟨HOLE, 60, 20⟩, ⟨3, 80, 20⟩]

/-- The initial memory of `main`: one big hole of size `MEMSIZE`. -/
def memInit : List MemNode := [⟨HOLE, 0, MEMSIZE⟩]

/-- Three free segments of lengths 10, 50 and 20. -/
def memThreeHoles : List MemNode :=
  [⟨HOLE, 0, 10⟩, ⟨HOLE, 10, 50⟩, ⟨HOLE, 60, 20⟩]

/-- Two processes ready for the first loop of tick 1: process 0 is in memory
with no service left, process 1 (arrival 1) has not arrived yet. -/
def procsTick1 : List Process :=
  [⟨0, 0, 10, 0, INMEMORY⟩, ⟨1, 1, 20, 2, NOTARRIVED⟩]

/-- The memory globals that go with `procsTick1`. -/
def globalsTick1 : Globals :=
  ⟨[⟨0, 0, 10⟩, ⟨HOLE, 10, 90⟩], 0⟩

/-- A workload of `N = 50` processes: process 0 (arrival 0, size 10, service
1), process 1 (arrival 1, size 20, service 2) and 48 processes that arrive
after the end of the run. -/
def inputStaggered : List (Int × Int × Int) :=
  (0, 10, 1) :: (1, 20, 2) :: List.replicate 48 (200, 1, 1)

/-- A workload of `N = 50` processes of size 2 arriving at time 0, 25 with
service time 1 and 25 with service time -1: the total required service is 0. -/
def inputZeroService : List (Int × Int × Int) :=
  List.replicate 25 (0, 2, 1) ++ List.replicate 25 (0, 2, -1)

/-- A workload of `N = 50` processes with service time 1000000 each, none of
which arrives before the end of the run. -/
def inputLongService : List (Int × Int × Int) :=
  List.replicate 50 (200, 1, 1000000)

/-- Two processes arriving at time 0 with sizes 40 and 70 (service 3 and 2). -/
def inputTwo : List (Int × Int × Int) :=
  [(0, 40, 3), (0, 70, 2)]

/-- A waiting process with the given pid and size. -/
def mkProc (pid size : Int) : Process :=
  { pid := pid, arrival := 0, size := size, service := 1, status := WAITING }

theorem find_entry_append (pid : Int) (pre : List MemNode) (m : MemNode) (post : List MemNode)
    (k : Nat) (hpre : ∀ x ∈ pre, x.pid ≠ pid) (hm : m.pid = pid) :
    find_entry pid (pre ++ m :: post) k = some (k + pre.length) := by
  induction pre generalizing k with
  | nil => simp [find_entry, hm]
  | cons a pre ih =>
    have ha : a.pid ≠ pid := hpre a (List.mem_cons_self _ _)
    have ih2 := ih (k + 1) (fun x hx => hpre x (List.mem_cons_of_mem _ hx))
    simp [find_entry, ha, ih2]
    omega

theorem getElem?_app (pre post : List MemNode) (k : Nat) :
    (pre ++ post)[pre.length + k]? = post[k]? := by
  rw [List.getElem?_append_right (Nat.le_add_right _ _)]
  simp

theorem take_app (pre post : List MemNode) (k : Nat) :
    (pre ++ post).take (pre.length + k) = pre ++ post.take k := by
  simp [List.take_append_eq_append_take]

theorem drop_app (pre post : List MemNode) (k : Nat) :
    (pre ++ post).drop (pre.length + k) = post.drop k := by
  simp [List.drop_append_eq_append_drop]

theorem set_app (pre post : List MemNode) (k : Nat) (x : MemNode) :
    (pre ++ post).set (pre.length + k) x = pre ++ post.set k x := by
  rw [List.set_append_right _ _ (Nat.le_add_right _ _)]
  simp

theorem release_head (pid : Int) (m : MemNode) (post : List MemNode) (hm : m.pid = pid) :
    release pid (m :: post) =
      match post with
      | [] => none
      | n :: rest =>
        if n.pid = HOLE then
          some ({ n with size := n.size + m.size, start := m.start } :: rest, 0)
        else some ({ m with pid := HOLE } :: n :: rest, 0) := by
  cases post <;> simp [release, find_entry, hm]

theorem release_inner (pid : Int) (pre : List MemNode) (p m : MemNode) (post : List MemNode)
    (hpre : ∀ x ∈ pre, x.pid ≠ pid) (hp : p.pid ≠ pid) (hm : m.pid = pid) :
    release pid (pre ++ p :: m :: post) =
      match post with
      | [] =>
        if p.pid = HOLE then
          some (pre ++ [{ p with size := p.size + m.size }], pre.length)
        else some (pre ++ [p, { m with pid := HOLE }], pre.length + 1)
      | n :: rest =>
        if n.pid = HOLE then
          if p.pid = HOLE then
            some (pre ++ { p with size := p.size + m.size + n.size } :: rest, pre.length)
          else
            some (pre ++ p :: { n with size := n.size + m.size, start := m.start } :: rest,
              pre.length + 1)
        else
          if p.pid = HOLE then
            some (pre ++ { p with size := p.size + m.size } :: n :: rest, pre.length)
          else some (pre ++ p :: { m with pid := HOLE } :: n :: rest, pre.length + 1) := by
  have hf : find_entry pid (pre ++ p :: m :: post) 0 = some (pre.length + 1) := by
    have h := find_entry_append pid (pre ++ [p]) m post 0 (by
      intro x hx
      rcases List.mem_append.1 hx with h | h
      · exact hpre x h
      · simp at h; subst h; exact hp) hm
    simpa using h
  have e0 : (pre ++ p :: m :: post)[pre.length]? = some p := by
    have h := getElem?_app pre (p :: m :: post) 0
    simpa using h
  have e1 : (pre ++ p :: m :: post)[pre.length + 1]? = some m := by
    rw [getElem?_app]; simp
  have e2 : (pre ++ p :: m :: post)[pre.length + 1 + 1]? = post[0]? := by
    rw [Nat.add_assoc, getElem?_app]; simp
  have t0 : (pre ++ p :: m :: post).take pre.length = pre := by
    simp
  have t1 : (pre ++ p :: m :: post).take (pre.length + 1) = pre ++ [p] := by
    rw [take_app]; rfl
  have d1 : (pre ++ p :: m :: post).drop (pre.length + 1 + 1) = post := by
    rw [Nat.add_assoc, drop_app]; rfl
  have d2 : (pre ++ p :: m :: post).drop (pre.length + 1 + 2) = post.drop 1 := by
    rw [Nat.add_assoc, drop_app]; rfl
  have s1 : ∀ x, (pre ++ p :: m :: post).set (pre.length + 1) x = pre ++ p :: x :: post := by
    intro x; rw [set_app]; rfl
  unfold release
  rw [hf]
  simp only [e0, e1, e2, t0, t1, d1, d2, s1, Nat.add_one_ne_zero, if_false, Nat.add_sub_cancel]
  cases post with
  | nil => simp
  | cons n rest => simp

theorem adjacent_iff_chain (R : MemNode → MemNode → Prop) (l : List MemNode) :
    adjacent R l ↔ List.Chain' R l := by
  induction l with
  | nil => simp [adjacent]
  | cons a rest ih =>
    cases rest with
    | nil => simp [adjacent]
    | cons b rest => simp [adjacent, List.chain'_cons, ih]

theorem adjacent_append (R : MemNode → MemNode → Prop) (l₁ l₂ : List MemNode) :
    adjacent R (l₁ ++ l₂) ↔
      adjacent R l₁ ∧ adjacent R l₂ ∧ ∀ x ∈ l₁.getLast?, ∀ y ∈ l₂.head?, R x y := by
  simp only [adjacent_iff_chain]
  exact List.chain'_append

theorem spans_append (a b : List MemNode) (s t : Int) :
    spans s (a ++ b) t ↔ ∃ u, spans s a u ∧ spans u b t := by
  induction a generalizing s with
  | nil => simp [spans]
  | cons x a ih =>
    rw [List.cons_append]
    simp only [spans]
    rw [ih]
    constructor
    · rintro ⟨h1, u, h2, h3⟩
      exact ⟨u, ⟨h1, h2⟩, h3⟩
    · rintro ⟨u, ⟨h1, h2⟩, h3⟩
      exact ⟨h1, u, h2, h3⟩

theorem layout_from_iff (mem : List MemNode) (s t : Int) :
    (pairwiseContiguous mem ∧ firstStart mem = some s ∧ lastEnd mem = some t) ↔
      (mem ≠ [] ∧ spans s mem t) := by
  induction mem generalizing s with
  | nil => simp [firstStart]
  | cons x rest ih =>
    cases rest with
    | nil =>
      simp only [pairwiseContiguous, firstStart, lastEnd, spans, adjacent, List.head?_cons,
        Option.map_some', List.getLast?_singleton, Option.some.injEq, true_and, ne_eq,
        not_false_eq_true, reduceCtorEq]
      constructor
      · rintro ⟨h1, h2⟩
        subst h1
        exact ⟨rfl, h2⟩
      · rintro ⟨h1, h2⟩
        subst h1
        exact ⟨rfl, h2⟩
    | cons y rest =>
      have ih2 := ih (s + x.size)
      simp only [pairwiseContiguous, firstStart, lastEnd, adjacent, List.head?_cons,
        Option.map_some', List.getLast?_cons_cons, ne_eq, not_false_eq_true, true_and,
        Option.some.injEq, reduceCtorEq] at ih2 ⊢
      rw [spans, ← ih2]
      constructor
      · rintro ⟨⟨h1, h2⟩, h3, h4⟩
        subst h3
        exact ⟨rfl, h2, h1.symm, h4⟩
      · rintro ⟨h1, h2, h3, h4⟩
        subst h1
        exact ⟨⟨h3.symm, h2⟩, rfl, h4⟩

theorem layout_iff (mem : List MemNode) (total : Int) :
    Layout mem total ↔ (mem ≠ [] ∧ spans 0 mem total) :=
  layout_from_iff mem 0 total

/-! ## Decomposition of the list around a node -/

theorem split_at_index (mem : List MemNode) (i : Nat) (h : MemNode) (hi : mem[i]? = some h) :
    ∃ pre post, mem = pre ++ h :: post ∧ pre.length = i := by
  induction mem generalizing i with
  | nil => simp at hi
  | cons x rest ih =>
    cases i with
    | zero =>
      simp at hi
      exact ⟨[], rest, by simp [hi], rfl⟩
    | succ k =>
      simp at hi
      obtain ⟨pre, post, h1, h2⟩ := ih k hi
      exact ⟨x :: pre, post, by simp [h1], by simp [h2]⟩

theorem split_at_owner (pid : Int) (mem : List MemNode) (h : ∃ x ∈ mem, x.pid = pid) :
    ∃ pre m post, mem = pre ++ m :: post ∧ m.pid = pid ∧ ∀ x ∈ pre, x.pid ≠ pid := by
  induction mem with
  | nil => simp at h
  | cons a rest ih =>
    by_cases ha : a.pid = pid
    · exact ⟨[], a, rest, rfl, ha, by simp⟩
    · have h2 : ∃ x ∈ rest, x.pid = pid := by
        obtain ⟨x, hx, hxp⟩ := h
        rcases List.mem_cons.1 hx with e | e
        · subst e; exact absurd hxp ha
        · exact ⟨x, e, hxp⟩
      obtain ⟨pre, m, post, h1, h3, h4⟩ := ih h2
      refine ⟨a :: pre, m, post, by simp [h1], h3, ?_⟩
      intro x hx
      rcases List.mem_cons.1 hx with e | e
      · subst e; exact ha
      · exact h4 x e

theorem owner_of_ownsExactlyOne (pid : Int) (mem : List MemNode) (h : ownsExactlyOne pid mem) :
    ∃ x ∈ mem, x.pid = pid := by
  unfold ownsExactlyOne at h
  have hpos : 0 < mem.countP (fun x => decide (x.pid = pid)) := by omega
  obtain ⟨x, hx, hp⟩ := List.countP_pos_iff.1 hpos
  exact ⟨x, hx, by simpa using hp⟩

theorem insert_at (proc : Process) (pre : List MemNode) (h : MemNode) (post : List MemNode) :
    insert proc (pre ++ h :: post) pre.length =
      some (pre ++ { pid := proc.pid, start := h.start, size := proc.size } ::
        { h with start := h.start + proc.size, size := h.size - proc.size } :: post,
        pre.length) := by
  have e0 : (pre ++ h :: post)[pre.length]? = some h := by
    have e := getElem?_app pre (h :: post) 0
    simpa using e
  have d1 : (pre ++ h :: post).drop (pre.length + 1) = post := by
    rw [drop_app]; rfl
  unfold insert
  rw [e0]
  simp only [d1, List.take_left']

theorem find_entry_none (pid : Int) (mem : List MemNode) (k : Nat)
    (h : ∀ x ∈ mem, x.pid ≠ pid) : find_entry pid mem k = none := by
  induction mem generalizing k with
  | nil => rfl
  | cons a rest ih =>
    have ha : a.pid ≠ pid := h a (List.mem_cons_self _ _)
    simp [find_entry, ha, ih (k + 1) (fun x hx => h x (List.mem_cons_of_mem _ hx))]

theorem release_owner (pid : Int) (mem : List MemNode) (r : List MemNode × Nat)
    (hr : release pid mem = some r) : ∃ x ∈ mem, x.pid = pid := by
  by_contra hno
  push_neg at hno
  have hf := find_entry_none pid mem 0 hno
  simp [release, hf] at hr

/-- Every completed `release` is one of four shapes: merge into the left
neighbour only, merge of both neighbours, merge into the right neighbour only,
or no merge. -/
theorem release_shape (pid : Int) (mem : List MemNode) (r : List MemNode × Nat)
    (hr : release pid mem = some r) :
    (∃ pre p m post, mem = pre ++ p :: m :: post ∧ m.pid = pid ∧ p.pid ≠ pid ∧
        (∀ x ∈ pre, x.pid ≠ pid) ∧ p.pid = HOLE ∧ (∀ y ∈ post.head?, y.pid ≠ HOLE) ∧
        r = (pre ++ { p with size := p.size + m.size } :: post, pre.length)) ∨
    (∃ pre p m n post, mem = pre ++ p :: m :: n :: post ∧ m.pid = pid ∧ p.pid ≠ pid ∧
        (∀ x ∈ pre, x.pid ≠ pid) ∧ p.pid = HOLE ∧ n.pid = HOLE ∧
        r = (pre ++ { p with size := p.size + m.size + n.size } :: post, pre.length)) ∨
    (∃ pre m n post, mem = pre ++ m :: n :: post ∧ m.pid = pid ∧
        (∀ x ∈ pre, x.pid ≠ pid) ∧ (∀ x ∈ pre.getLast?, x.pid ≠ HOLE) ∧ n.pid = HOLE ∧
        r = (pre ++ { n with size := n.size + m.size, start := m.start } :: post,
          pre.length)) ∨
    (∃ pre m post, mem = pre ++ m :: post ∧ m.pid = pid ∧
        (∀ x ∈ pre, x.pid ≠ pid) ∧ (∀ x ∈ pre.getLast?, x.pid ≠ HOLE) ∧
        (∀ y ∈ post.head?, y.pid ≠ HOLE) ∧ (pre ≠ [] ∨ post ≠ []) ∧
        r = (pre ++ { m with pid := HOLE } :: post, pre.length)) := by
  obtain ⟨pre, m, post, hmem, hm, hpre⟩ := split_at_owner pid mem (release_owner pid mem r hr)
  subst hmem
  rcases List.eq_nil_or_concat pre with hnil | ⟨pre', p, hcat⟩
  · subst hnil
    rw [List.nil_append, release_head pid m post hm] at hr
    cases post with
    | nil => simp at hr
    | cons n rest =>
      by_cases hn : n.pid = HOLE
      · simp only [hn, if_true, Option.some.injEq] at hr
        right; right; left
        exact ⟨[], m, n, rest, rfl, hm, hpre, by simp, hn, by simp [← hr, hn]⟩
      · simp only [hn, if_false, Option.some.injEq] at hr
        right; right; right
        exact ⟨[], m, n :: rest, rfl, hm, hpre, by simp, by simpa using hn, by simp,
          by simp [← hr]⟩
  · rw [List.concat_eq_append] at hcat
    subst hcat
    have hp : p.pid ≠ pid := hpre p (by simp)
    have hpre' : ∀ x ∈ pre', x.pid ≠ pid := fun x hx => hpre x (by simp [hx])
    have hassoc : pre' ++ [p] ++ m :: post = pre' ++ p :: m :: post := by simp
    rw [hassoc, release_inner pid pre' p m post hpre' hp hm] at hr
    cases post with
    | nil =>
      by_cases hph : p.pid = HOLE
      · simp only [hph, if_true, Option.some.injEq] at hr
        left
        exact ⟨pre', p, m, [], by simp, hm, hp, hpre', hph, by simp, by simp [← hr, hph]⟩
      · simp only [hph, if_false, Option.some.injEq] at hr
        right; right; right
        exact ⟨pre' ++ [p], m, [], rfl, hm, hpre, by simpa using hph, by simp, by simp,
          by simp [← hr]⟩
    | cons n rest =>
      by_cases hn : n.pid = HOLE <;> by_cases hph : p.pid = HOLE
      · simp only [hn, hph, if_true, Option.some.injEq] at hr
        right; left
        exact ⟨pre', p, m, n, rest, by simp, hm, hp, hpre', hph, hn, by simp [← hr, hph]⟩
      · simp only [hn, hph, if_true, if_false, Option.some.injEq] at hr
        right; right; left
        exact ⟨pre' ++ [p], m, n, rest, rfl, hm, hpre, by simpa using hph, hn,
          by simp [← hr, hn]⟩
      · simp only [hn, hph, if_true, if_false, Option.some.injEq] at hr
        left
        exact ⟨pre', p, m, n :: rest, by simp, hm, hp, hpre', hph, by simpa using hn,
          by simp [← hr, hph]⟩
      · simp only [hn, hph, if_false, Option.some.injEq] at hr
        right; right; right
        exact ⟨pre' ++ [p], m, n :: rest, rfl, hm, hpre, by simpa using hph,
          by simpa using hn, by simp, by simp [← hr]⟩

/-- The only `NULL` dereferences of `release`: the pid owns no segment, or the
list has a single node.  In every other case the call completes. -/
theorem release_completes (pid : Int) (mem : List MemNode) (hown : ∃ x ∈ mem, x.pid = pid)
    (hlen : 2 ≤ mem.length) : ∃ r, release pid mem = some r := by
  obtain ⟨pre, m, post, hmem, hm, hpre⟩ := split_at_owner pid mem hown
  subst hmem
  rcases List.eq_nil_or_concat pre with hnil | ⟨pre', p, hcat⟩
  · subst hnil
    rw [List.nil_append, release_head pid m post hm]
    cases post with
    | nil => simp at hlen
    | cons n rest =>
      show ∃ r, (if n.pid = HOLE then _ else _) = some r
      split_ifs <;> exact ⟨_, rfl⟩
  · rw [List.concat_eq_append] at hcat
    subst hcat
    have hp : p.pid ≠ pid := hpre p (by simp)
    have hpre' : ∀ x ∈ pre', x.pid ≠ pid := fun x hx => hpre x (by simp [hx])
    have hassoc : pre' ++ [p] ++ m :: post = pre' ++ p :: m :: post := by simp
    rw [hassoc, release_inner pid pre' p m post hpre' hp hm]
    cases post with
    | nil =>
      show ∃ r, (if p.pid = HOLE then _ else _) = some r
      split_ifs <;> exact ⟨_, rfl⟩
    | cons n rest =>
      show ∃ r, (if n.pid = HOLE then _ else _) = some r
      split_ifs <;> exact ⟨_, rfl⟩

/-! ## Layout invariant (contiguity) -/

theorem ascending_of_contiguous (mem : List MemNode) (hc : pairwiseContiguous mem)
    (hs : nonnegSizes mem) : ascendingStarts mem := by
  induction mem with
  | nil => exact trivial
  | cons x rest ih =>
    cases rest with
    | nil => exact trivial
    | cons y rest =>
      have hc : x.start + x.size = y.start ∧ pairwiseContiguous (y :: rest) := hc
      show x.start ≤ y.start ∧ ascendingStarts (y :: rest)
      refine ⟨?_, ih hc.2 (fun z hz => hs z (List.mem_cons_of_mem _ hz))⟩
      have hx : 0 ≤ x.size := hs x (List.mem_cons_self _ _)
      have h1 := hc.1
      omega

theorem spans_insert (proc : Process) (pre : List MemNode) (h : MemNode)
    (post : List MemNode) (s t : Int) (hsp : spans s (pre ++ h :: post) t) :
    spans s (pre ++ { pid := proc.pid, start := h.start, size := proc.size } ::
      { h with start := h.start + proc.size, size := h.size - proc.size } :: post) t := by
  rw [spans_append] at hsp ⊢
  obtain ⟨u, h1, h2, h3⟩ := hsp
  refine ⟨u, h1, h2, ?_, ?_⟩
  · show h.start + proc.size = u + proc.size
    rw [h2]
  · have e : u + proc.size + (h.size - proc.size) = u + h.size := by ring
    show spans (u + proc.size + (h.size - proc.size)) post t
    rw [e]; exact h3

theorem spans_release (pid : Int) (mem : List MemNode) (r : List MemNode × Nat)
    (hr : release pid mem = some r) (s t : Int) (hsp : spans s mem t) : spans s r.1 t := by
  rcases release_shape pid mem r hr with
    ⟨pre, p, m, post, hmem, -, -, -, -, -, hres⟩ |
    ⟨pre, p, m, n, post, hmem, -, -, -, -, -, hres⟩ |
    ⟨pre, m, n, post, hmem, -, -, -, -, hres⟩ |
    ⟨pre, m, post, hmem, -, -, -, -, -, hres⟩
  all_goals
    subst hmem hres
    rw [spans_append] at hsp ⊢
    obtain ⟨u, h1, h2⟩ := hsp
    refine ⟨u, h1, ?_⟩
  · obtain ⟨a1, a2, a3⟩ := h2
    refine ⟨a1, ?_⟩
    have e : u + (p.size + m.size) = u + p.size + m.size := by ring
    show spans (u + (p.size + m.size)) post t
    rw [e]; exact a3
  · obtain ⟨a1, a2, a3, a4⟩ := h2
    refine ⟨a1, ?_⟩
    have e : u + (p.size + m.size + n.size) = u + p.size + m.size + n.size := by ring
    show spans (u + (p.size + m.size + n.size)) post t
    rw [e]; exact a4
  · obtain ⟨a1, a2, a3⟩ := h2
    refine ⟨a1, ?_⟩
    have e : u + (n.size + m.size) = u + m.size + n.size := by ring
    show spans (u + (n.size + m.size)) post t
    rw [e]; exact a3
  · exact h2

theorem release_ne_nil (pid : Int) (mem : List MemNode) (r : List MemNode × Nat)
    (hr : release pid mem = some r) : r.1 ≠ [] := by
  rcases release_shape pid mem r hr with
    ⟨pre, p, m, post, -, -, -, -, -, -, hres⟩ |
    ⟨pre, p, m, n, post, -, -, -, -, -, -, hres⟩ |
    ⟨pre, m, n, post, -, -, -, -, -, hres⟩ |
    ⟨pre, m, post, -, -, -, -, -, -, hres⟩
  all_goals
    subst hres
    simp

theorem nonneg_release (pid : Int) (mem : List MemNode) (r : List MemNode × Nat)
    (hr : release pid mem = some r) (hs : nonnegSizes mem) : nonnegSizes r.1 := by
  rcases release_shape pid mem r hr with
    ⟨pre, p, m, post, hmem, -, -, -, -, -, hres⟩ |
    ⟨pre, p, m, n, post, hmem, -, -, -, -, -, hres⟩ |
    ⟨pre, m, n, post, hmem, -, -, -, -, hres⟩ |
    ⟨pre, m, post, hmem, -, -, -, -, -, hres⟩
  all_goals
    subst hmem hres
    intro x hx
    simp only [List.mem_append, List.mem_cons] at hx
    have hp := fun y (hy : y ∈ pre) => hs y (by simp [hy])
    have hq := fun y (hy : y ∈ post) => hs y (by simp [hy])
    have hm : 0 ≤ m.size := hs m (by simp)
  · have hpp : 0 ≤ p.size := hs p (by simp)
    rcases hx with h | h | h
    · exact hp x h
    · subst h; show 0 ≤ p.size + m.size; omega
    · exact hq x h
  · have hpp : 0 ≤ p.size := hs p (by simp)
    have hn : 0 ≤ n.size := hs n (by simp)
    rcases hx with h | h | h
    · exact hp x h
    · subst h; show 0 ≤ p.size + m.size + n.size; omega
    · exact hq x h
  · have hn : 0 ≤ n.size := hs n (by simp)
    rcases hx with h | h | h
    · exact hp x h
    · subst h; show 0 ≤ n.size + m.size; omega
    · exact hq x h
  · rcases hx with h | h | h
    · exact hp x h
    · subst h; exact hm
    · exact hq x h

/-- C1: for a memory list that is pairwise contiguous, starts at 0 and ends at
`total`, `insert` into a free segment that is large enough completes and keeps
that layout, and every completed `release` of a pid owning exactly one segment
keeps it too; when no size is negative the start offsets of the result are in
ascending order. -/
theorem layout_preserved (mem : List MemNode) (total : Int) (hlay : Layout mem total) :
    (∀ (proc : Process) (hole : Nat) (h : MemNode), mem[hole]? = some h → h.pid = HOLE →
        proc.size ≤ h.size →
        ∃ mem', insert proc mem hole = some (mem', hole) ∧ Layout mem' total ∧
          (nonnegSizes mem → 0 ≤ proc.size → ascendingStarts mem')) ∧
    (∀ (pid : Int) (r : List MemNode × Nat), ownsExactlyOne pid mem →
        release pid mem = some r →
        Layout r.1 total ∧ (nonnegSizes mem → ascendingStarts r.1)) := by
  rw [layout_iff] at hlay
  obtain ⟨hne, hsp⟩ := hlay
  constructor
  · intro proc hole h hget hfree hle
    obtain ⟨pre, post, hmem, hlen⟩ := split_at_index mem hole h hget
    subst hmem hlen
    refine ⟨_, insert_at proc pre h post, ?_, ?_⟩
    · rw [layout_iff]
      exact ⟨by simp, spans_insert proc pre h post 0 total hsp⟩
    · intro hs hp
      have hl : Layout (pre ++ { pid := proc.pid, start := h.start, size := proc.size } ::
          { h with start := h.start + proc.size, size := h.size - proc.size } :: post) total := by
        rw [layout_iff]
        exact ⟨by simp, spans_insert proc pre h post 0 total hsp⟩
      refine ascending_of_contiguous _ hl.1 ?_
      intro x hx
      simp only [List.mem_append, List.mem_cons] at hx
      rcases hx with e | e | e | e
      · exact hs x (by simp [e])
      · subst e; exact hp
      · subst e; show 0 ≤ h.size - proc.size; omega
      · exact hs x (by simp [e])
  · intro pid r _ hr
    have hl : Layout r.1 total := by
      rw [layout_iff]
      exact ⟨release_ne_nil pid mem r hr, spans_release pid mem r hr 0 total hsp⟩
    exact ⟨hl, fun hs => ascending_of_contiguous _ hl.1 (nonneg_release pid mem r hr hs)⟩

/-- C1 witness: `memSample` (total 100), inserting a process of size 5 into the
hole at position 2 and releasing process 1. -/
theorem layout_preserved_witness :
    Layout memSample 100 ∧
    (∃ mem', insert (mkProc 7 5) memSample 2 = some (mem', 2) ∧ Layout mem' 100 ∧
      (nonnegSizes memSample → 0 ≤ (mkProc 7 5).size → ascendingStarts mem')) ∧
    (Layout [⟨HOLE, 0, 80⟩, ⟨3, 80, 20⟩] 100 ∧
      (nonnegSizes memSample → ascendingStarts [⟨HOLE, 0, 80⟩, ⟨3, 80, 20⟩])) :=
  ⟨by decide,
   (layout_preserved memSample 100 (by decide)).1 (mkProc 7 5) 2 ⟨HOLE, 60, 20⟩
     (by decide) (by decide) (by decide),
   (layout_preserved memSample 100 (by decide)).2 1 ([⟨HOLE, 0, 80⟩, ⟨3, 80, 20⟩], 0)
     (by decide) (by decide)⟩

/-! ## No two adjacent free segments -/

theorem naf_cons (a : MemNode) (post : List MemNode) :
    noAdjacentFree (a :: post) ↔
      noAdjacentFree post ∧ ∀ y ∈ post.head?, ¬ (a.pid = HOLE ∧ y.pid = HOLE) := by
  cases post with
  | nil => simp [noAdjacentFree, adjacent]
  | cons b rest =>
    simp only [noAdjacentFree, adjacent, List.head?_cons, Option.mem_def, Option.some.injEq,
      forall_eq']
    exact and_comm

theorem naf_mid (pre : List MemNode) (a : MemNode) (post : List MemNode) :
    noAdjacentFree (pre ++ a :: post) ↔
      noAdjacentFree pre ∧ noAdjacentFree post ∧
      (∀ x ∈ pre.getLast?, ¬ (x.pid = HOLE ∧ a.pid = HOLE)) ∧
      (∀ y ∈ post.head?, ¬ (a.pid = HOLE ∧ y.pid = HOLE)) := by
  have h := adjacent_append (fun a b : MemNode => ¬ (a.pid = HOLE ∧ b.pid = HOLE)) pre
    (a :: post)
  have h2 := naf_cons a post
  unfold noAdjacentFree at h2 ⊢
  rw [h, h2]
  simp only [List.head?_cons, Option.mem_def, Option.some.injEq, forall_eq']
  tauto

theorem naf_release (pid : Int) (mem : List MemNode) (r : List MemNode × Nat)
    (hr : release pid mem = some r) (hinv : noAdjacentFree mem) : noAdjacentFree r.1 := by
  rcases release_shape pid mem r hr with
    ⟨pre, p, m, post, hmem, -, -, -, hp, hpost, hres⟩ |
    ⟨pre, p, m, n, post, hmem, -, -, -, hp, hn, hres⟩ |
    ⟨pre, m, n, post, hmem, -, -, hlast, hn, hres⟩ |
    ⟨pre, m, post, hmem, -, -, hlast, hpost, -, hres⟩
  · subst hmem hres
    simp only [naf_mid, naf_cons] at hinv ⊢
    obtain ⟨h1, ⟨h2, -⟩, h3, -⟩ := hinv
    exact ⟨h1, h2, h3, fun y hy hc => hpost y hy hc.2⟩
  · subst hmem hres
    simp only [naf_mid, naf_cons, List.head?_cons, Option.mem_def, Option.some.injEq,
      forall_eq'] at hinv ⊢
    obtain ⟨h1, ⟨⟨h2, h5⟩, -⟩, h3, -⟩ := hinv
    exact ⟨h1, h2, h3, fun y hy hc => h5 y hy ⟨hn, hc.2⟩⟩
  · subst hmem hres
    simp only [naf_mid, naf_cons, List.head?_cons, Option.mem_def, Option.some.injEq,
      forall_eq'] at hinv ⊢
    obtain ⟨h1, ⟨h2, h5⟩, -, -⟩ := hinv
    exact ⟨h1, h2, fun x hx hc => hlast x hx hc.1, h5⟩
  · subst hmem hres
    simp only [naf_mid] at hinv ⊢
    obtain ⟨h1, h2, -, -⟩ := hinv
    exact ⟨h1, h2, fun x hx hc => hlast x hx hc.1, fun y hy hc => hpost y hy hc.2⟩

/-- C2: in a memory list without two adjacent free segments, `insert` of a
process (whose pid is not the `HOLE` marker) into a free segment, and every
completed `release` of a pid owning exactly one segment, give a list that again
has no two adjacent free segments. -/
theorem no_adjacent_free_preserved (mem : List MemNode) (hinv : noAdjacentFree mem) :
    (∀ (proc : Process) (hole : Nat) (h : MemNode), mem[hole]? = some h → h.pid = HOLE →
        proc.pid ≠ HOLE →
        ∃ mem', insert proc mem hole = some (mem', hole) ∧ noAdjacentFree mem') ∧
    (∀ (pid : Int) (r : List MemNode × Nat), ownsExactlyOne pid mem →
        release pid mem = some r → noAdjacentFree r.1) := by
  constructor
  · intro proc hole h hget _ hpid
    obtain ⟨pre, post, hmem, hlen⟩ := split_at_index mem hole h hget
    subst hmem hlen
    refine ⟨_, insert_at proc pre h post, ?_⟩
    simp only [naf_mid, naf_cons, List.head?_cons, Option.mem_def, Option.some.injEq,
      forall_eq'] at hinv ⊢
    obtain ⟨h1, h2, -, h4⟩ := hinv
    exact ⟨h1, ⟨h2, h4⟩, fun x _ hc => hpid hc.2, fun hc => hpid hc.1⟩
  · intro pid r _ hr
    exact naf_release pid mem r hr hinv

/-- C2 witness: `memSample`, inserting process 7 into the hole at position 2
and releasing process 1 (which has a free neighbour on both sides). -/
theorem no_adjacent_free_preserved_witness :
    noAdjacentFree memSample ∧
    (∃ mem', insert (mkProc 7 5) memSample 2 = some (mem', 2) ∧ noAdjacentFree mem') ∧
    noAdjacentFree [⟨HOLE, 0, 80⟩, ⟨3, 80, 20⟩] :=
  ⟨by decide,
   (no_adjacent_free_preserved memSample (by decide)).1 (mkProc 7 5) 2 ⟨HOLE, 60, 20⟩
     (by decide) (by decide) (by decide),
   (no_adjacent_free_preserved memSample (by decide)).2 1 ([⟨HOLE, 0, 80⟩, ⟨3, 80, 20⟩], 0)
     (by decide) (by decide)⟩

/-! ## Zero-length segments -/

/-- C3 (as stated, refuted): inserting a size-100 process into the single free
segment `[0,100)` keeps the hole as a second, free segment of size 0, so the
result has a zero-length segment and is not a single occupied segment. -/
theorem insert_exact_fit_keeps_empty_hole :
    noZeroLength memInit ∧ memInit[0]? = some ⟨HOLE, 0, 100⟩ ∧
    1 ≤ (mkProc 0 100).size ∧ (mkProc 0 100).size ≤ 100 ∧
    insert (mkProc 0 100) memInit 0 = some ([⟨0, 0, 100⟩, ⟨HOLE, 100, 0⟩], 0) ∧
    ¬ noZeroLength [⟨0, 0, 100⟩, ⟨HOLE, 100, 0⟩] := by
  decide

/-- C3 (amended): for a list without zero-length segment, a free segment `h`
and `1 ≤ proc.size`, `insert` puts the new occupied node at the position
of the hole and keeps the shrunk hole right after it; the result has no
zero-length segment when `proc.size < h.size`, and when `proc.size = h.size`
the hole is kept as a free segment of size 0. -/
theorem insert_zero_length (mem : List MemNode) (hnz : noZeroLength mem) (proc : Process)
    (hole : Nat) (h : MemNode) (hget : mem[hole]? = some h) (hfree : h.pid = HOLE)
    (h1 : 1 ≤ proc.size) :
    ∃ mem', insert proc mem hole = some (mem', hole) ∧
      mem'.length = mem.length + 1 ∧
      mem'[hole]? = some ⟨proc.pid, h.start, proc.size⟩ ∧
      mem'[hole + 1]? = some ⟨HOLE, h.start + proc.size, h.size - proc.size⟩ ∧
      (proc.size < h.size → noZeroLength mem') ∧
      (proc.size = h.size →
        mem'[hole + 1]? = some ⟨HOLE, h.start + h.size, 0⟩ ∧ ¬ noZeroLength mem') := by
  obtain ⟨pre, post, hmem, hlen⟩ := split_at_index mem hole h hget
  subst hmem hlen
  refine ⟨_, insert_at proc pre h post, by simp; omega, ?_, ?_, ?_, ?_⟩
  · have e := getElem?_app pre (({ pid := proc.pid, start := h.start, size := proc.size } :
      MemNode) :: { h with start := h.start + proc.size, size := h.size - proc.size } :: post) 0
    simpa using e
  · rw [getElem?_app]
    simp [hfree]
  · intro hlt x hx
    simp only [List.mem_append, List.mem_cons] at hx
    rcases hx with e | e | e | e
    · exact hnz x (by simp [e])
    · subst e; show proc.size ≠ 0; omega
    · subst e; show h.size - proc.size ≠ 0; omega
    · exact hnz x (by simp [e])
  · intro heq
    constructor
    · rw [getElem?_app]
      simp [hfree, heq]
    · intro hall
      have := hall { h with start := h.start + proc.size, size := h.size - proc.size }
        (by simp)
      apply this
      show h.size - proc.size = 0
      omega

/-- C3 witness: a size-5 process put into the size-20 hole of `memSample`. -/
theorem insert_zero_length_witness :
    ∃ mem', insert (mkProc 7 5) memSample 2 = some (mem', 2) ∧
      mem'.length = memSample.length + 1 ∧
      mem'[2]? = some ⟨7, 60, 5⟩ ∧
      mem'[2 + 1]? = some ⟨HOLE, 60 + 5, 20 - 5⟩ ∧
      ((5 : Int) < 20 → noZeroLength mem') ∧
      ((5 : Int) = 20 → mem'[2 + 1]? = some ⟨HOLE, 60 + 20, 0⟩ ∧ ¬ noZeroLength mem') :=
  insert_zero_length memSample (by decide) (mkProc 7 5) 2 ⟨HOLE, 60, 20⟩ (by decide)
    (by decide) (by decide)

/-! ## Conservation of the total size -/

theorem totalSize_mid (pre post : List MemNode) :
    totalSize (pre ++ post) = totalSize pre + totalSize post := by
  simp [totalSize]

theorem totalSize_cons (a : MemNode) (post : List MemNode) :
    totalSize (a :: post) = a.size + totalSize post := by
  simp [totalSize]

theorem totalSize_insert (proc : Process) (mem : List MemNode) (hole : Nat)
    (r : List MemNode × Nat) (hr : insert proc mem hole = some r) :
    totalSize r.1 = totalSize mem := by
  cases hget : mem[hole]? with
  | none => simp [insert, hget] at hr
  | some h =>
    obtain ⟨pre, post, hmem, hlen⟩ := split_at_index mem hole h hget
    subst hmem hlen
    rw [insert_at] at hr
    simp only [Option.some.injEq] at hr
    subst hr
    simp only [totalSize_mid, totalSize_cons]
    ring

theorem totalSize_release (pid : Int) (mem : List MemNode) (r : List MemNode × Nat)
    (hr : release pid mem = some r) : totalSize r.1 = totalSize mem := by
  rcases release_shape pid mem r hr with
    ⟨pre, p, m, post, hmem, -, -, -, -, -, hres⟩ |
    ⟨pre, p, m, n, post, hmem, -, -, -, -, -, hres⟩ |
    ⟨pre, m, n, post, hmem, -, -, -, -, hres⟩ |
    ⟨pre, m, post, hmem, -, -, -, -, -, hres⟩
  all_goals
    subst hmem hres
    simp only [totalSize_mid, totalSize_cons]
  all_goals ring

/-- C4: every sequence of `insert` and `release` operations that runs to
completion leaves the sum of all segment sizes unchanged. -/
theorem total_size_conserved (ops : List Op) (mem mem' : List MemNode)
    (hrun : runOps ops mem = some mem') : totalSize mem' = totalSize mem := by
  induction ops generalizing mem with
  | nil =>
    simp only [runOps, Option.some.injEq] at hrun
    rw [hrun]
  | cons op ops ih =>
    simp only [runOps] at hrun
    cases hop : applyOp op mem with
    | none => simp [hop] at hrun
    | some mid =>
      rw [hop] at hrun
      have hmid : totalSize mid = totalSize mem := by
        cases op with
        | ins proc hole =>
          simp only [applyOp, Option.map_eq_some'] at hop
          obtain ⟨r, hr, hfst⟩ := hop
          rw [← hfst]
          exact totalSize_insert proc mem hole r hr
        | rel pid =>
          simp only [applyOp, Option.map_eq_some'] at hop
          obtain ⟨r, hr, hfst⟩ := hop
          rw [← hfst]
          exact totalSize_release pid mem r hr
      rw [ih mid hrun, hmid]

/-- C4 witness: on the initial memory, place processes 0 (size 40) and 1
(size 30), release 0, place process 2 (size 10) in the freed hole, release 1. -/
theorem total_size_conserved_witness :
    totalSize [⟨2, 0, 10⟩, ⟨HOLE, 10, 90⟩] = totalSize memInit :=
  total_size_conserved
    [Op.ins (mkProc 0 40) 0, Op.ins (mkProc 1 30) 1, Op.rel 0, Op.ins (mkProc 2 10) 0, Op.rel 1]
    memInit [⟨2, 0, 10⟩, ⟨HOLE, 10, 90⟩] (by decide)

/-! ## Merge on release -/

theorem not_owner_before (pid : Int) (a : List MemNode) (m : MemNode) (b : List MemNode)
    (hm : m.pid = pid) (hown : ownsExactlyOne pid (a ++ m :: b)) :
    ∀ x ∈ a, x.pid ≠ pid := by
  unfold ownsExactlyOne at hown
  rw [List.countP_append, List.countP_cons] at hown
  simp only [hm, decide_True, if_true] at hown
  have h0 : a.countP (fun x => decide (x.pid = pid)) = 0 := by omega
  intro x hx
  have := List.countP_eq_zero.1 h0 x hx
  simpa using this

/-- C5: when the pid owns exactly one segment `m` that has a left neighbour `p`
and a right neighbour `n`: if both neighbours are free, `release` replaces
`p, m, n` by one free segment at `p.start` of size `p.size + m.size + n.size`
(two segments fewer, the rest unchanged); if neither is free, only the pid of
`m` changes, to `HOLE`. -/
theorem release_merge_correct (pid : Int) (pre : List MemNode) (p m n : MemNode)
    (post : List MemNode) (hm : m.pid = pid)
    (hown : ownsExactlyOne pid (pre ++ p :: m :: n :: post)) :
    (p.pid = HOLE → n.pid = HOLE →
      release pid (pre ++ p :: m :: n :: post) =
        some (pre ++ ⟨HOLE, p.start, p.size + m.size + n.size⟩ :: post, pre.length) ∧
      (pre ++ (⟨HOLE, p.start, p.size + m.size + n.size⟩ : MemNode) :: post).length + 2 =
        (pre ++ p :: m :: n :: post).length) ∧
    (p.pid ≠ HOLE → n.pid ≠ HOLE →
      release pid (pre ++ p :: m :: n :: post) =
        some (pre ++ p :: ⟨HOLE, m.start, m.size⟩ :: n :: post, pre.length + 1)) := by
  have hall : ∀ x ∈ pre ++ [p], x.pid ≠ pid :=
    not_owner_before pid (pre ++ [p]) m (n :: post) hm (by simpa using hown)
  have hpre : ∀ x ∈ pre, x.pid ≠ pid := fun x hx => hall x (by simp [hx])
  have hp : p.pid ≠ pid := hall p (by simp)
  have hrel := release_inner pid pre p m (n :: post) hpre hp hm
  constructor
  · intro hph hnh
    constructor
    · rw [hrel]
      simp [hph, hnh]
    · simp only [List.length_append, List.length_cons]
      omega
  · intro hph hnh
    rw [hrel]
    simp [hph, hnh]

/-- C5 witness: in `memSample` process 1 lies between two holes; in the second
list process 1 lies between processes 5 and 4. -/
theorem release_merge_correct_witness :
    release 1 ([] ++ ⟨HOLE, 0, 10⟩ :: ⟨1, 10, 50⟩ :: ⟨HOLE, 60, 20⟩ :: [⟨3, 80, 20⟩]) =
      some ([] ++ ⟨HOLE, 0, 10 + 50 + 20⟩ :: [⟨3, 80, 20⟩], 0) ∧
    release 1 ([] ++ ⟨5, 0, 10⟩ :: ⟨1, 10, 50⟩ :: ⟨4, 60, 20⟩ :: [⟨HOLE, 80, 20⟩]) =
      some ([] ++ ⟨5, 0, 10⟩ :: ⟨HOLE, 10, 50⟩ :: ⟨4, 60, 20⟩ :: [⟨HOLE, 80, 20⟩], 0 + 1) :=
  ⟨((release_merge_correct 1 [] ⟨HOLE, 0, 10⟩ ⟨1, 10, 50⟩ ⟨HOLE, 60, 20⟩ [⟨3, 80, 20⟩]
      (by decide) (by decide)).1 (by decide) (by decide)).1,
   (release_merge_correct 1 [] ⟨5, 0, 10⟩ ⟨1, 10, 50⟩ ⟨4, 60, 20⟩ [⟨HOLE, 80, 20⟩]
      (by decide) (by decide)).2 (by decide) (by decide)⟩

/-! ## Release undoes insert -/

/-- C6: in a list without two adjacent free segments, inserting a process
with a fresh pid into a free segment `h` and then releasing that pid gives back
the original list (same pids, starts and sizes in the same order), and
`release` returns the position of the restored hole.  This holds for every
size, in particular for `1 ≤ size ≤ h.size`. -/
theorem release_undoes_insert (mem : List MemNode) (hinv : noAdjacentFree mem)
    (proc : Process) (hole : Nat) (h : MemNode) (hget : mem[hole]? = some h)
    (hfree : h.pid = HOLE) (hfresh : ∀ x ∈ mem, x.pid ≠ proc.pid) :
    ∃ mem', insert proc mem hole = some (mem', hole) ∧
      release proc.pid mem' = some (mem, hole) := by
  obtain ⟨pre, post, hmem, hlen⟩ := split_at_index mem hole h hget
  subst hmem hlen
  refine ⟨_, insert_at proc pre h post, ?_⟩
  have hback : (⟨HOLE, h.start, h.size⟩ : MemNode) = h := by
    rw [← hfree]
  rcases List.eq_nil_or_concat pre with hnil | ⟨pre', p, hcat⟩
  · subst hnil
    rw [List.nil_append, release_head proc.pid _ _ rfl]
    simp [hfree, hback]
  · rw [List.concat_eq_append] at hcat
    subst hcat
    have hp : p.pid ≠ proc.pid := hfresh p (by simp)
    have hpre : ∀ x ∈ pre', x.pid ≠ proc.pid := fun x hx => hfresh x (by simp [hx])
    have hnp : p.pid ≠ HOLE := by
      have hsplit : noAdjacentFree (pre' ++ p :: (h :: post)) := by simpa using hinv
      rw [naf_mid, naf_cons] at hsplit
      intro hc
      exact hsplit.2.2.2 h (by simp) ⟨hc, hfree⟩
    have hassoc : ∀ l : List MemNode, pre' ++ [p] ++ l = pre' ++ p :: l := by
      intro l; simp
    rw [hassoc, release_inner proc.pid pre' p _ _ hpre hp rfl]
    simp [hfree, hnp, hback]

/-- C6 witness: a size-100 process put into the single free segment `[0,100)`
and released again. -/
theorem release_undoes_insert_witness :
    ∃ mem', insert (mkProc 0 100) memInit 0 = some (mem', 0) ∧
      release (mkProc 0 100).pid mem' = some (memInit, 0) :=
  release_undoes_insert memInit (by decide) (mkProc 0 100) 0 ⟨HOLE, 0, 100⟩ (by decide)
    (by decide) (by decide)

/-! ## First fit -/

theorem first_fit_loop_some (size : Int) (l : List MemNode) (k i : Nat)
    (h : first_fit_loop size l k = some i) :
    ∃ j x, i = k + j ∧ l[j]? = some x ∧ fits size x = true ∧
      ∀ j' y, j' < j → l[j']? = some y → fits size y = false := by
  induction l generalizing k with
  | nil => simp [first_fit_loop] at h
  | cons a rest ih =>
    by_cases ha : fits size a = true
    · simp only [first_fit_loop, ha, if_true, Option.some.injEq] at h
      exact ⟨0, a, by omega, by simp, ha, fun j' y hj => absurd hj (Nat.not_lt_zero _)⟩
    · simp only [first_fit_loop, ha, if_false] at h
      obtain ⟨j, x, h1, h2, h3, h4⟩ := ih (k + 1) h
      refine ⟨j + 1, x, by omega, by simpa using h2, h3, ?_⟩
      intro j' y hj hy
      cases j' with
      | zero =>
        simp at hy
        subst hy
        simpa using ha
      | succ j'' =>
        exact h4 j'' y (by omega) (by simpa using hy)

theorem first_fit_loop_none (size : Int) (l : List MemNode) (k : Nat) :
    first_fit_loop size l k = none ↔ ∀ x ∈ l, fits size x = false := by
  induction l generalizing k with
  | nil => simp [first_fit_loop]
  | cons a rest ih =>
    by_cases ha : fits size a = true
    · simp [first_fit_loop, ha]
    · simp only [Bool.not_eq_true] at ha
      simp [first_fit_loop, ha, ih (k + 1)]

theorem fits_iff (size : Int) (x : MemNode) :
    fits size x = true ↔ (x.pid = HOLE ∧ size ≤ x.size) := by
  simp [fits]

theorem fits_false_iff (size : Int) (x : MemNode) :
    fits size x = false ↔ ¬ (x.pid = HOLE ∧ size ≤ x.size) := by
  rw [← fits_iff]
  simp

/-- C7: `first_fit` started at the head returns the first segment in list
order that is free and has size at least the requested size, and returns null
exactly when no segment of the list is free with such a size. -/
theorem first_fit_correct (proc : Process) (mem : List MemNode) :
    (∀ i, first_fit proc mem 0 = some i →
      ∃ x, mem[i]? = some x ∧ x.pid = HOLE ∧ proc.size ≤ x.size ∧
        ∀ j y, j < i → mem[j]? = some y → ¬ (y.pid = HOLE ∧ proc.size ≤ y.size)) ∧
    (first_fit proc mem 0 = none ↔
      ∀ x ∈ mem, ¬ (x.pid = HOLE ∧ proc.size ≤ x.size)) := by
  constructor
  · intro i hi
    simp only [first_fit, List.drop_zero] at hi
    obtain ⟨j, x, h1, h2, h3, h4⟩ := first_fit_loop_some proc.size mem 0 i hi
    have hij : i = j := by omega
    subst hij
    rw [fits_iff] at h3
    exact ⟨x, h2, h3.1, h3.2, fun j y hj hy => (fits_false_iff _ _).1 (h4 j y hj hy)⟩
  · simp only [first_fit, List.drop_zero]
    rw [first_fit_loop_none]
    constructor
    · intro h x hx
      exact (fits_false_iff _ _).1 (h x hx)
    · intro h x hx
      exact (fits_false_iff _ _).2 (h x hx)

/-- C7 witness: a request of size 15 on `memSample` skips the hole of size 10
and the occupied segment and returns the hole of size 20 at position 2. -/
theorem first_fit_correct_witness :
    first_fit (mkProc 7 15) memSample 0 = some 2 ∧
    ∃ x, memSample[2]? = some x ∧ x.pid = HOLE ∧ (mkProc 7 15).size ≤ x.size ∧
      ∀ j y, j < 2 → memSample[j]? = some y → ¬ (y.pid = HOLE ∧ (mkProc 7 15).size ≤ y.size) :=
  ⟨by decide, (first_fit_correct (mkProc 7 15) memSample).1 2 (by decide)⟩

/-! ## Next fit -/

theorem next_fit_forward_eq (size : Int) (l : List MemNode) (k : Nat) :
    next_fit_forward size l k = first_fit_loop size l k := by
  induction l generalizing k with
  | nil => rfl
  | cons a rest ih => simp [next_fit_forward, first_fit_loop, ih]

theorem next_fit_wrap_eq (size : Int) (c : Nat) (l : List MemNode) (k : Nat) (hk : k ≤ c) :
    next_fit_wrap size c l k = first_fit_loop size (l.take (c - k)) k := by
  induction l generalizing k with
  | nil => simp [next_fit_wrap, first_fit_loop]
  | cons a rest ih =>
    by_cases hkc : k = c
    · subst hkc
      simp [next_fit_wrap, first_fit_loop]
    · have hlt : k < c := by omega
      have hsub : c - k = (c - (k + 1)) + 1 := by omega
      rw [hsub, List.take_succ_cons]
      simp only [next_fit_wrap, first_fit_loop, hkc, if_false]
      rw [ih (k + 1) (by omega)]

theorem next_fit_unfold (proc : Process) (mem : List MemNode) (c last : Nat) :
    next_fit proc mem c last =
      match first_fit_loop proc.size (mem.drop c) c with
      | some i => (some i, i)
      | none =>
        match first_fit_loop proc.size (mem.take c) 0 with
        | some i => (some i, i)
        | none => (none, last) := by
  unfold next_fit
  rw [next_fit_forward_eq, next_fit_wrap_eq proc.size c mem 0 (Nat.zero_le _)]
  simp

/-- C8: `next_fit` started at cursor `c` returns the first free segment of
sufficient size in the order `c, ..., tail, head, ..., c - 1`; on success
`last_location` is set to the returned segment; it returns null exactly when no
segment of the whole list fits (and then `last_location` is unchanged). -/
theorem next_fit_correct (proc : Process) (mem : List MemNode) (c last : Nat) :
    (∀ i, (next_fit proc mem c last).1 = some i →
      (next_fit proc mem c last).2 = i ∧
      ∃ x, mem[i]? = some x ∧ x.pid = HOLE ∧ proc.size ≤ x.size ∧
        ((c ≤ i ∧ ∀ j y, c ≤ j → j < i → mem[j]? = some y →
            ¬ (y.pid = HOLE ∧ proc.size ≤ y.size)) ∨
         (i < c ∧
          (∀ j y, c ≤ j → mem[j]? = some y → ¬ (y.pid = HOLE ∧ proc.size ≤ y.size)) ∧
          (∀ j y, j < i → mem[j]? = some y → ¬ (y.pid = HOLE ∧ proc.size ≤ y.size))))) ∧
    ((next_fit proc mem c last).1 = none ↔
      ∀ x ∈ mem, ¬ (x.pid = HOLE ∧ proc.size ≤ x.size)) ∧
    ((next_fit proc mem c last).1 = none → (next_fit proc mem c last).2 = last) := by
  rw [next_fit_unfold]
  cases hfw : first_fit_loop proc.size (mem.drop c) c with
  | some i0 =>
    obtain ⟨j, x, h1, h2, h3, h4⟩ := first_fit_loop_some _ _ _ _ hfw
    rw [List.getElem?_drop] at h2
    rw [fits_iff] at h3
    refine ⟨?_, ?_, ?_⟩
    · intro i hi
      simp only [Option.some.injEq] at hi
      subst hi
      refine ⟨rfl, x, by rw [h1]; exact h2, h3.1, h3.2, Or.inl ⟨by omega, ?_⟩⟩
      intro j' y hcj hji hy
      refine (fits_false_iff _ _).1 (h4 (j' - c) y (by omega) ?_)
      rw [List.getElem?_drop]
      have e : c + (j' - c) = j' := by omega
      rw [e]; exact hy
    · simp only [reduceCtorEq, false_iff, not_forall]
      exact ⟨x, List.getElem?_mem h2, by simpa using h3⟩
    · intro hc
      simp at hc
  | none =>
    have hdrop : ∀ j y, c ≤ j → mem[j]? = some y → ¬ (y.pid = HOLE ∧ proc.size ≤ y.size) := by
      intro j' y hcj hy
      refine (fits_false_iff _ _).1 ((first_fit_loop_none _ _ _).1 hfw y ?_)
      apply List.getElem?_mem (n := j' - c)
      rw [List.getElem?_drop]
      have e : c + (j' - c) = j' := by omega
      rw [e]; exact hy
    cases hwr : first_fit_loop proc.size (mem.take c) 0 with
    | some i0 =>
      obtain ⟨j, x, h1, h2, h3, h4⟩ := first_fit_loop_some _ _ _ _ hwr
      have hjc : j < c := by
        by_contra hge
        rw [List.getElem?_take_eq_none (by omega)] at h2
        simp at h2
      rw [List.getElem?_take_of_lt hjc] at h2
      rw [fits_iff] at h3
      have hi0 : i0 = j := by omega
      subst hi0
      refine ⟨?_, ?_, ?_⟩
      · intro i hi
        simp only [Option.some.injEq] at hi
        subst hi
        refine ⟨rfl, x, h2, h3.1, h3.2, Or.inr ⟨hjc, hdrop, ?_⟩⟩
        intro j' y hji hy
        refine (fits_false_iff _ _).1 (h4 j' y hji ?_)
        rw [List.getElem?_take_of_lt (by omega)]
        exact hy
      · simp only [reduceCtorEq, false_iff, not_forall]
        exact ⟨x, List.getElem?_mem h2, by simpa using h3⟩
      · intro hc
        simp at hc
    | none =>
      refine ⟨?_, ?_, ?_⟩
      · intro i hi
        simp at hi
      · simp only [true_iff]
        intro x hx
        rw [← List.take_append_drop c mem] at hx
        rcases List.mem_append.1 hx with hx | hx
        · exact (fits_false_iff _ _).1 ((first_fit_loop_none _ _ _).1 hwr x hx)
        · exact (fits_false_iff _ _).1 ((first_fit_loop_none _ _ _).1 hfw x hx)
      · intro _
        rfl

/-- C8 witness: with the cursor on the last segment of `memSample` (occupied,
so nothing fits from the cursor to the tail) a request of size 5 wraps around
and returns the hole at the head; `last_location` becomes that position. -/
theorem next_fit_correct_witness :
    (next_fit (mkProc 7 5) memSample 3 3).1 = some 0 ∧
    ((next_fit (mkProc 7 5) memSample 3 3).2 = 0 ∧
      ∃ x, memSample[0]? = some x ∧ x.pid = HOLE ∧ (mkProc 7 5).size ≤ x.size ∧
        ((3 ≤ 0 ∧ ∀ j y, 3 ≤ j → j < 0 → memSample[j]? = some y →
            ¬ (y.pid = HOLE ∧ (mkProc 7 5).size ≤ y.size)) ∨
         (0 < 3 ∧
          (∀ j y, 3 ≤ j → memSample[j]? = some y →
            ¬ (y.pid = HOLE ∧ (mkProc 7 5).size ≤ y.size)) ∧
          (∀ j y, j < 0 → memSample[j]? = some y →
            ¬ (y.pid = HOLE ∧ (mkProc 7 5).size ≤ y.size))))) :=
  ⟨by decide, (next_fit_correct (mkProc 7 5) memSample 3 3).1 0 (by decide)⟩

/-! ## Best fit -/

/-- Invariant of the `best_fit` loop: the result is either the incoming `best`
(no remaining segment fits with a difference below `least_diff`), or the first
remaining segment of least difference, that difference being below
`least_diff`. -/
theorem best_fit_loop_spec (size : Int) (l : List MemNode) (k : Nat) (best : Option Nat)
    (ld : Int) :
    (best_fit_loop size l k best ld = best ∧
      ∀ y ∈ l, fits size y = true → ld ≤ y.size - size) ∨
    (∃ j x, best_fit_loop size l k best ld = some (k + j) ∧ l[j]? = some x ∧
      fits size x = true ∧ x.size - size < ld ∧
      (∀ (j' : Nat) (y : MemNode), l[j']? = some y → fits size y = true →
        x.size - size ≤ y.size - size) ∧
      (∀ j' y, j' < j → l[j']? = some y → fits size y = true →
        x.size - size < y.size - size)) := by
  induction l generalizing k best ld with
  | nil => left; simp [best_fit_loop]
  | cons a rest ih =>
    by_cases hsel : fits size a = true ∧ a.size - size < ld
    · have hstep : best_fit_loop size (a :: rest) k best ld =
          best_fit_loop size rest (k + 1) (some k) (a.size - size) := by
        simp [best_fit_loop, hsel.1, hsel.2]
      rw [hstep]
      rcases ih (k + 1) (some k) (a.size - size) with ⟨h1, h2⟩ | ⟨j, x, h1, h2, h3, h4, h5, h6⟩
      · right
        refine ⟨0, a, by simpa using h1, by simp, hsel.1, hsel.2, ?_, ?_⟩
        · intro j' y hy hf
          cases j' with
          | zero =>
            simp at hy
            subst hy
            exact le_refl _
          | succ j'' =>
            exact h2 y (List.getElem?_mem (by simpa using hy)) hf
        · intro j' y hj
          exact absurd hj (Nat.not_lt_zero _)
      · right
        refine ⟨j + 1, x, by rw [h1]; congr 1; omega, by simpa using h2, h3,
          lt_trans h4 hsel.2, ?_, ?_⟩
        · intro j' y hy hf
          cases j' with
          | zero =>
            simp at hy
            subst hy
            exact le_of_lt h4
          | succ j'' => exact h5 j'' y (by simpa using hy) hf
        · intro j' y hj hy hf
          cases j' with
          | zero =>
            simp at hy
            subst hy
            exact h4
          | succ j'' => exact h6 j'' y (by omega) (by simpa using hy) hf
    · have hstep : best_fit_loop size (a :: rest) k best ld =
          best_fit_loop size rest (k + 1) best ld := by
        by_cases hf : fits size a = true
        · have hnl : ¬ a.size - size < ld := fun hc => hsel ⟨hf, hc⟩
          simp [best_fit_loop, hf, hnl]
        · simp [best_fit_loop, hf]
      have ha : fits size a = true → ld ≤ a.size - size := by
        intro hf
        by_contra hc
        exact hsel ⟨hf, by omega⟩
      rw [hstep]
      rcases ih (k + 1) best ld with ⟨h1, h2⟩ | ⟨j, x, h1, h2, h3, h4, h5, h6⟩
      · left
        refine ⟨h1, ?_⟩
        intro y hy hf
        rcases List.mem_cons.1 hy with e | e
        · subst e; exact ha hf
        · exact h2 y e hf
      · right
        refine ⟨j + 1, x, by rw [h1]; congr 1; omega, by simpa using h2, h3, h4, ?_, ?_⟩
        · intro j' y hy hf
          cases j' with
          | zero =>
            simp at hy
            subst hy
            have := ha hf
            omega
          | succ j'' => exact h5 j'' y (by simpa using hy) hf
        · intro j' y hj hy hf
          cases j' with
          | zero =>
            simp at hy
            subst hy
            have := ha hf
            omega
          | succ j'' => exact h6 j'' y (by omega) (by simpa using hy) hf

/-- C9: in a memory consisting of one free segment of size 200, a request of
size 50 fits and `first_fit` and `next_fit` return that segment, yet `best_fit`
returns null: the difference 150 is not below the initial `least_diff = 100`,
a literal that does not follow the memory size. -/
theorem best_fit_misses_large_hole :
    (1 : Int) ≤ (mkProc 0 50).size ∧
    (∃ x ∈ [(⟨HOLE, 0, 200⟩ : MemNode)], x.pid = HOLE ∧ (mkProc 0 50).size ≤ x.size) ∧
    first_fit (mkProc 0 50) [⟨HOLE, 0, 200⟩] 0 = some 0 ∧
    (next_fit (mkProc 0 50) [⟨HOLE, 0, 200⟩] 0 0).1 = some 0 ∧
    best_fit (mkProc 0 50) [⟨HOLE, 0, 200⟩] 0 = none := by
  decide

/-! ## Worst fit -/

/-- C10: on the free segments of lengths 10, 50, 20 and a request of size 5,
`worst_fit` (whose body is empty in the source) yields no defined result, so it
does not select the length-50 segment at position 1 (nor report null); `insert`
at that position would leave the lengths 10, 5, 45, 20.  The same holds on the
initial memory, where the first placement of a run with `fit w` happens. -/
theorem worst_fit_no_result :
    worst_fit (mkProc 0 5) memThreeHoles 0 = none ∧
    worst_fit (mkProc 0 5) memThreeHoles 0 ≠ some (some 1) ∧
    worst_fit (mkProc 0 5) [⟨HOLE, 0, 5⟩] 0 ≠ some none ∧
    worst_fit (mkProc 0 5) memInit 0 = none ∧
    (insert (mkProc 0 5) memThreeHoles 1).map (fun r => r.1.map (fun x => x.size)) =
      some [10, 5, 45, 20] := by
  decide

/-! ## Placement soundness -/

theorem first_fit_sound (proc : Process) (mem : List MemNode) (start m : Nat)
    (h : first_fit proc mem start = some m) :
    ∃ x, mem[m]? = some x ∧ x.pid = HOLE ∧ proc.size ≤ x.size := by
  obtain ⟨j, x, h1, h2, h3, -⟩ := first_fit_loop_some proc.size (mem.drop start) start m h
  rw [List.getElem?_drop, ← h1] at h2
  rw [fits_iff] at h3
  exact ⟨x, h2, h3.1, h3.2⟩

theorem next_fit_sound (proc : Process) (mem : List MemNode) (c last m : Nat)
    (h : (next_fit proc mem c last).1 = some m) :
    ∃ x, mem[m]? = some x ∧ x.pid = HOLE ∧ proc.size ≤ x.size := by
  rw [next_fit_unfold] at h
  cases hfw : first_fit_loop proc.size (mem.drop c) c with
  | some i0 =>
    rw [hfw] at h
    simp only [Option.some.injEq] at h
    subst h
    exact first_fit_sound proc mem c i0 hfw
  | none =>
    rw [hfw] at h
    cases hwr : first_fit_loop proc.size (mem.take c) 0 with
    | some i0 =>
      rw [hwr] at h
      simp only [Option.some.injEq] at h
      subst h
      obtain ⟨j, x, h1, h2, h3, -⟩ := first_fit_loop_some _ _ _ _ hwr
      have hjc : j < c := by
        by_contra hge
        rw [List.getElem?_take_eq_none (by omega)] at h2
        simp at h2
      rw [List.getElem?_take_of_lt hjc] at h2
      rw [fits_iff] at h3
      have e : i0 = j := by omega
      subst e
      exact ⟨x, h2, h3.1, h3.2⟩
    | none =>
      rw [hwr] at h
      simp at h

theorem best_fit_sound (proc : Process) (mem : List MemNode) (start m : Nat)
    (h : best_fit proc mem start = some m) :
    ∃ x, mem[m]? = some x ∧ x.pid = HOLE ∧ proc.size ≤ x.size := by
  unfold best_fit at h
  rcases best_fit_loop_spec proc.size (mem.drop start) start none 100 with
    ⟨h1, -⟩ | ⟨j, x, h1, h2, h3, -⟩
  · rw [h1] at h
    simp at h
  · rw [h1] at h
    simp only [Option.some.injEq] at h
    rw [List.getElem?_drop, h] at h2
    rw [fits_iff] at h3
    exact ⟨x, h2, h3.1, h3.2⟩

/-- For the three implemented strategies the dispatch returns a result, and a
returned node is a free node of the list that is large enough. -/
theorem fit_algorithm_sound (ft : FitType) (hft : ft ≠ FitType.w) (proc : Process)
    (mem : List MemNode) (start last : Nat) :
    ∃ r last2, fit_algorithm ft proc mem start last = some (r, last2) ∧
      ∀ m, r = some m → ∃ x, mem[m]? = some x ∧ x.pid = HOLE ∧ proc.size ≤ x.size := by
  cases ft with
  | f => exact ⟨_, _, rfl, fun m hm => first_fit_sound proc mem start m hm⟩
  | n => exact ⟨_, _, rfl, fun m hm => next_fit_sound proc mem start last m hm⟩
  | b => exact ⟨_, _, rfl, fun m hm => best_fit_sound proc mem start m hm⟩
  | w => exact absurd rfl hft

/-- The two outcomes of the placement step for one process: it is put into a
free node that is large enough, or process and memory list stay as they are. -/
theorem placement_check_cases (ft : FitType) (hft : ft ≠ FitType.w) (t : Int) (i : Nat)
    (p : Process) (g : Globals) :
    (∃ m x r, p.status = WAITING ∧ g.memory[m]? = some x ∧ x.pid = HOLE ∧ p.size ≤ x.size ∧
      insert p g.memory m = some r ∧
      placement_check ft t i p g =
        some ({ p with status := INMEMORY }, ⟨r.1, r.2⟩, [⟨t, Message.INMEMORY, (i : Int)⟩])) ∨
    (∃ last, placement_check ft t i p g = some (p, ⟨g.memory, last⟩, [])) := by
  by_cases hw : p.status = WAITING
  · obtain ⟨r, last2, hfit, hsound⟩ := fit_algorithm_sound ft hft p g.memory
      (if ft = FitType.n then g.last_location else 0) g.last_location
    cases r with
    | none =>
      right
      exact ⟨last2, by simp only [placement_check, hw, if_true, hfit]⟩
    | some m =>
      left
      obtain ⟨x, hx, hfree, hsize⟩ := hsound m rfl
      obtain ⟨pre, post, hmem, hlen⟩ := split_at_index g.memory m x hx
      have hins := insert_at p pre x post
      rw [← hmem, hlen] at hins
      exact ⟨m, x, _, hw, hx, hfree, hsize, hins,
        by simp only [placement_check, hw, if_true, hfit, hins]⟩
  · right
    exact ⟨g.last_location, by simp only [placement_check, hw, if_false]⟩

/-- C11: a segment returned by `first_fit`, `next_fit` or `best_fit` is a node
of the list, free and at least as large as the process; the placement step
(for these three strategies) sets a process to `INMEMORY` and inserts it only
if it was `WAITING` and such a free node exists in the memory list, and
otherwise leaves the process and the memory list unchanged. -/
theorem placement_sound (proc : Process) (mem : List MemNode) (c last : Nat) :
    (∀ m, first_fit proc mem 0 = some m →
      ∃ x, mem[m]? = some x ∧ x.pid = HOLE ∧ proc.size ≤ x.size) ∧
    (∀ m, (next_fit proc mem c last).1 = some m →
      ∃ x, mem[m]? = some x ∧ x.pid = HOLE ∧ proc.size ≤ x.size) ∧
    (∀ m, best_fit proc mem 0 = some m →
      ∃ x, mem[m]? = some x ∧ x.pid = HOLE ∧ proc.size ≤ x.size) ∧
    (∀ (ft : FitType) (t : Int) (i : Nat), ft ≠ FitType.w →
      ∃ p2 g2 es, placement_check ft t i proc ⟨mem, last⟩ = some (p2, g2, es) ∧
        ((proc.status = WAITING ∧ p2 = { proc with status := INMEMORY } ∧
          ∃ m x, mem[m]? = some x ∧ x.pid = HOLE ∧ proc.size ≤ x.size ∧
            insert proc mem m = some (g2.memory, g2.last_location)) ∨
         (p2 = proc ∧ g2.memory = mem ∧ es = []))) := by
  refine ⟨fun m h => first_fit_sound proc mem 0 m h,
    fun m h => next_fit_sound proc mem c last m h,
    fun m h => best_fit_sound proc mem 0 m h, ?_⟩
  intro ft t i hft
  rcases placement_check_cases ft hft t i proc ⟨mem, last⟩ with
    ⟨m, x, r, hw, hx, hfree, hsize, hins, hpc⟩ | ⟨last2, hpc⟩
  · exact ⟨_, _, _, hpc, Or.inl ⟨hw, rfl, m, x, hx, hfree, hsize, hins⟩⟩
  · exact ⟨_, _, _, hpc, Or.inr ⟨rfl, rfl, rfl⟩⟩

/-- C11 witness: on `memSample` a waiting process of size 15 is placed by first
fit into the hole at position 2; a waiting process of size 30 stays waiting. -/
theorem placement_sound_witness :
    (∃ x, memSample[2]? = some x ∧ x.pid = HOLE ∧ (mkProc 7 15).size ≤ x.size) ∧
    placement_check FitType.f 4 7 (mkProc 7 15) ⟨memSample, 0⟩ =
      some ({ mkProc 7 15 with status := INMEMORY },
        ⟨[⟨HOLE, 0, 10⟩, ⟨1, 10, 50⟩, ⟨7, 60, 15⟩, ⟨HOLE, 75, 5⟩, ⟨3, 80, 20⟩], 2⟩,
        [⟨4, Message.INMEMORY, 7⟩]) ∧
    placement_check FitType.b 4 7 (mkProc 7 30) ⟨memSample, 0⟩ =
      some (mkProc 7 30, ⟨memSample, 0⟩, []) :=
  ⟨(placement_sound (mkProc 7 15) memSample 0 0).1 2 (by decide), by decide, by decide⟩

/-! ## `insert` does not check its arguments -/

/-- C12 (as stated, refuted): `insert` into the occupied node at position 1 of
`memSample`, and into the hole of size 10 at position 0 with a process of size
30, both complete and return a changed list (in the second case with a hole of
size -20); no error is reported. -/
theorem insert_accepts_bad_hole :
    memSample[1]? = some ⟨1, 10, 50⟩ ∧ (1 : Int) ≠ HOLE ∧
    insert (mkProc 7 5) memSample 1 =
      some ([⟨HOLE, 0, 10⟩, ⟨7, 10, 5⟩, ⟨1, 15, 45⟩, ⟨HOLE, 60, 20⟩, ⟨3, 80, 20⟩], 1) ∧
    memSample[0]? = some ⟨HOLE, 0, 10⟩ ∧ (10 : Int) < (mkProc 7 30).size ∧
    insert (mkProc 7 30) memSample 0 =
      some ([⟨7, 0, 30⟩, ⟨HOLE, 30, -20⟩, ⟨1, 10, 50⟩, ⟨HOLE, 60, 20⟩, ⟨3, 80, 20⟩], 0) := by
  decide

/-- C12 (amended): `insert` tests neither the pid nor the size of `hole`.  It
fails only when `hole` is not a node of the list; for every node `h` of the
list, whatever its pid and size, it completes, links the node
`(proc.pid, h.start, proc.size)` in front of it and changes `h` to
`(h.pid, h.start + proc.size, h.size - proc.size)`, the rest of the list being
unchanged. -/
theorem insert_unchecked (proc : Process) (mem : List MemNode) (hole : Nat) :
    (insert proc mem hole = none ↔ mem.length ≤ hole) ∧
    (∀ h, mem[hole]? = some h →
      ∃ pre post, mem = pre ++ h :: post ∧ pre.length = hole ∧
        insert proc mem hole =
          some (pre ++ ⟨proc.pid, h.start, proc.size⟩ ::
            ⟨h.pid, h.start + proc.size, h.size - proc.size⟩ :: post, hole)) := by
  constructor
  · cases hget : mem[hole]? with
    | none =>
      have hlen : mem.length ≤ hole := List.getElem?_eq_none_iff.1 hget
      simp [insert, hget, hlen]
    | some h =>
      have hlt : hole < mem.length := by
        by_contra hc
        rw [List.getElem?_eq_none_iff.2 (by omega)] at hget
        simp at hget
      simp only [insert, hget, reduceCtorEq, false_iff]
      omega
  · intro h hget
    obtain ⟨pre, post, hmem, hlen⟩ := split_at_index mem hole h hget
    refine ⟨pre, post, hmem, hlen, ?_⟩
    subst hmem hlen
    exact insert_at proc pre h post

/-- C12 witness: the occupied node at position 1 of `memSample`. -/
theorem insert_unchecked_witness :
    ∃ pre post, memSample = pre ++ ⟨1, 10, 50⟩ :: post ∧ pre.length = 1 ∧
      insert (mkProc 7 5) memSample 1 =
        some (pre ++ ⟨(mkProc 7 5).pid, 10, (mkProc 7 5).size⟩ ::
          ⟨1, 10 + (mkProc 7 5).size, 50 - (mkProc 7 5).size⟩ :: post, 1) :=
  (insert_unchecked (mkProc 7 5) memSample 1).2 ⟨1, 10, 50⟩ (by decide)

/-! ## The node returned by `release` -/

theorem getElem?_at (pre : List MemNode) (x : MemNode) (post : List MemNode) :
    (pre ++ x :: post)[pre.length]? = some x := by
  have e := getElem?_app pre (x :: post) 0
  simpa using e

theorem contiguous_mid (pre : List MemNode) (a b : MemNode) (post : List MemNode)
    (hc : pairwiseContiguous (pre ++ a :: b :: post)) : a.start + a.size = b.start := by
  unfold pairwiseContiguous at hc
  rw [adjacent_append] at hc
  exact hc.2.1.1

theorem unique_owner (pid : Int) (pre : List MemNode) (m : MemNode) (post : List MemNode)
    (hm : m.pid = pid) (hown : ownsExactlyOne pid (pre ++ m :: post)) (x : MemNode)
    (hx : x ∈ pre ++ m :: post) (hxp : x.pid = pid) : x = m := by
  have hpre := not_owner_before pid pre m post hm hown
  unfold ownsExactlyOne at hown
  rw [List.countP_append, List.countP_cons] at hown
  simp only [hm, decide_True, if_true] at hown
  have h0 : post.countP (fun x => decide (x.pid = pid)) = 0 := by omega
  rcases List.mem_append.1 hx with h | h
  · exact absurd hxp (hpre x h)
  · rcases List.mem_cons.1 h with h | h
    · exact h
    · have := List.countP_eq_zero.1 h0 x h
      simp only [decide_eq_true_eq] at this
      exact absurd hxp this

/-- C13: for a pairwise contiguous list (segment sizes being lengths, none is
negative) and a pid owning exactly one segment `m`, whenever `release`
completes, the node it returns is a node of the resulting list, is free, and
covers the released range. -/
theorem release_returns_cover (pid : Int) (mem : List MemNode) (m : MemNode)
    (hc : pairwiseContiguous mem) (hnn : nonnegSizes mem) (hown : ownsExactlyOne pid mem)
    (hmem : m ∈ mem) (hmp : m.pid = pid) (r : List MemNode × Nat)
    (hr : release pid mem = some r) :
    ∃ x, r.1[r.2]? = some x ∧ x.pid = HOLE ∧
      x.start ≤ m.start ∧ m.start + m.size ≤ x.start + x.size := by
  rcases release_shape pid mem r hr with
    ⟨pre, p, m0, post, hshape, hm0, -, -, hp, -, hres⟩ |
    ⟨pre, p, m0, n, post, hshape, hm0, -, -, hp, hn, hres⟩ |
    ⟨pre, m0, n, post, hshape, hm0, -, -, hn, hres⟩ |
    ⟨pre, m0, post, hshape, hm0, -, -, -, -, hres⟩
  · subst hshape hres
    have e : m = m0 := unique_owner pid (pre ++ [p]) m0 post hm0 (by simpa using hown) m
      (by simpa using hmem) hmp
    subst e
    have h1 := contiguous_mid pre p m post hc
    have h2 : 0 ≤ p.size := hnn p (by simp)
    refine ⟨⟨p.pid, p.start, p.size + m.size⟩, getElem?_at pre _ post, hp, ?_, ?_⟩
    · show p.start ≤ m.start; omega
    · show m.start + m.size ≤ p.start + (p.size + m.size); omega
  · subst hshape hres
    have e : m = m0 := unique_owner pid (pre ++ [p]) m0 (n :: post) hm0
      (by simpa using hown) m (by simpa using hmem) hmp
    subst e
    have h1 := contiguous_mid pre p m (n :: post) hc
    have h2 : 0 ≤ p.size := hnn p (by simp)
    have h3 : 0 ≤ n.size := hnn n (by simp)
    refine ⟨⟨p.pid, p.start, p.size + m.size + n.size⟩, getElem?_at pre _ post, hp, ?_, ?_⟩
    · show p.start ≤ m.start; omega
    · show m.start + m.size ≤ p.start + (p.size + m.size + n.size); omega
  · subst hshape hres
    have e : m = m0 := unique_owner pid pre m0 (n :: post) hm0 hown m hmem hmp
    subst e
    have h3 : 0 ≤ n.size := hnn n (by simp)
    refine ⟨⟨n.pid, m.start, n.size + m.size⟩, getElem?_at pre _ post, hn, ?_, ?_⟩
    · show m.start ≤ m.start; omega
    · show m.start + m.size ≤ m.start + (n.size + m.size); omega
  · subst hshape hres
    have e : m = m0 := unique_owner pid pre m0 post hm0 hown m hmem hmp
    subst e
    refine ⟨⟨HOLE, m.start, m.size⟩, getElem?_at pre _ post, rfl, ?_, ?_⟩
    · show m.start ≤ m.start; omega
    · show m.start + m.size ≤ m.start + m.size; omega

/-- C13 witness: releasing process 1 of `memSample` returns the merged hole
`[0, 80)` at position 0, which covers the released range `[10, 60)`. -/
theorem release_returns_cover_witness :
    ∃ x, ([⟨HOLE, 0, 80⟩, ⟨3, 80, 20⟩] : List MemNode)[0]? = some x ∧ x.pid = HOLE ∧
      x.start ≤ 10 ∧ (10 : Int) + 50 ≤ x.start + x.size :=
  release_returns_cover 1 memSample ⟨1, 10, 50⟩ (by decide) (by decide) (by decide)
    (by decide) (by decide) ([⟨HOLE, 0, 80⟩, ⟨3, 80, 20⟩], 0) (by decide)

/-! ## The last segment stays free -/

theorem lastPid_cons_cons (a b : MemNode) (post : List MemNode) :
    lastPid (a :: b :: post) = lastPid (b :: post) := by
  simp [lastPid, List.getLast?_cons_cons]

theorem lastPid_append_cons (pre : List MemNode) (a : MemNode) (post : List MemNode) :
    lastPid (pre ++ a :: post) = lastPid (a :: post) := by
  induction pre with
  | nil => rfl
  | cons x pre ih =>
    cases pre with
    | nil => exact lastPid_cons_cons x a post
    | cons y pre =>
      rw [List.cons_append, List.cons_append, lastPid_cons_cons, ← List.cons_append, ih]

theorem lastPid_head_congr (a b : MemNode) (post : List MemNode) (h : a.pid = b.pid) :
    lastPid (a :: post) = lastPid (b :: post) := by
  cases post with
  | nil => simp [lastPid, h]
  | cons y rest => rw [lastPid_cons_cons, lastPid_cons_cons]

theorem lastPid_insert (proc : Process) (mem : List MemNode) (hole : Nat)
    (r : List MemNode × Nat) (hr : insert proc mem hole = some r) :
    lastPid r.1 = lastPid mem := by
  cases hget : mem[hole]? with
  | none => simp [insert, hget] at hr
  | some h =>
    obtain ⟨pre, post, hmem, hlen⟩ := split_at_index mem hole h hget
    subst hmem hlen
    rw [insert_at] at hr
    simp only [Option.some.injEq] at hr
    subst hr
    rw [lastPid_append_cons, lastPid_append_cons, lastPid_cons_cons]
    exact lastPid_head_congr _ _ post rfl

theorem lastFree_release (pid : Int) (mem : List MemNode) (r : List MemNode × Nat)
    (hr : release pid mem = some r) (hl : lastFree mem) : lastFree r.1 := by
  unfold lastFree at hl ⊢
  rcases release_shape pid mem r hr with
    ⟨pre, p, m, post, hmem, -, -, -, hp, -, hres⟩ |
    ⟨pre, p, m, n, post, hmem, -, -, -, hp, hn, hres⟩ |
    ⟨pre, m, n, post, hmem, -, -, -, hn, hres⟩ |
    ⟨pre, m, post, hmem, -, -, -, -, -, hres⟩
  · subst hmem hres
    rw [lastPid_append_cons] at hl ⊢
    cases post with
    | nil => simp [lastPid, hp]
    | cons y rest =>
      rw [lastPid_cons_cons] at hl ⊢
      rw [lastPid_cons_cons] at hl
      exact hl
  · subst hmem hres
    rw [lastPid_append_cons] at hl ⊢
    cases post with
    | nil => simp [lastPid, hp]
    | cons y rest =>
      rw [lastPid_cons_cons] at hl ⊢
      rw [lastPid_cons_cons, lastPid_cons_cons] at hl
      exact hl
  · subst hmem hres
    rw [lastPid_append_cons] at hl ⊢
    rw [lastPid_cons_cons] at hl
    rw [← hl]
    exact lastPid_head_congr _ _ post rfl
  · subst hmem hres
    rw [lastPid_append_cons] at hl ⊢
    cases post with
    | nil => simp [lastPid]
    | cons y rest =>
      rw [lastPid_cons_cons] at hl ⊢
      exact hl

/-- An occupied node of a list whose last node is free has a successor. -/
theorem occupied_has_next (mem : List MemNode) (hl : lastFree mem) (i : Nat) (x : MemNode)
    (hx : mem[i]? = some x) (hocc : x.pid ≠ HOLE) : ∃ n, mem[i + 1]? = some n := by
  have hlt : i < mem.length := by
    by_contra hc
    rw [List.getElem?_eq_none_iff.2 (by omega)] at hx
    simp at hx
  by_cases hlast : i + 1 < mem.length
  · exact ⟨mem[i + 1], List.getElem?_eq_getElem hlast⟩
  · exfalso
    have hi : mem.length - 1 = i := by omega
    unfold lastFree lastPid at hl
    rw [List.getLast?_eq_getElem?, hi, hx] at hl
    simp only [Option.map_some', Option.some.injEq] at hl
    exact hocc hl

theorem find_entry_spec (pid : Int) (mem : List MemNode) (k i : Nat)
    (h : find_entry pid mem k = some i) : ∃ j x, i = k + j ∧ mem[j]? = some x ∧ x.pid = pid := by
  induction mem generalizing k with
  | nil => simp [find_entry] at h
  | cons a rest ih =>
    by_cases ha : a.pid = pid
    · simp only [find_entry, ha, if_true, Option.some.injEq] at h
      exact ⟨0, a, by omega, by simp, ha⟩
    · simp only [find_entry, ha, if_false] at h
      obtain ⟨j, x, h1, h2, h3⟩ := ih (k + 1) h
      exact ⟨j + 1, x, by omega, by simpa using h2, h3⟩

theorem lastFree_runOps (ops : List Op) (mem mem2 : List MemNode)
    (hrun : runOps ops mem = some mem2) (hl : lastFree mem) : lastFree mem2 := by
  induction ops generalizing mem with
  | nil =>
    simp only [runOps, Option.some.injEq] at hrun
    rw [← hrun]; exact hl
  | cons op ops ih =>
    simp only [runOps] at hrun
    cases hop : applyOp op mem with
    | none => simp [hop] at hrun
    | some mid =>
      rw [hop] at hrun
      refine ih mid hrun ?_
      cases op with
      | ins proc hole =>
        simp only [applyOp, Option.map_eq_some'] at hop
        obtain ⟨r, hr, hfst⟩ := hop
        rw [← hfst]
        unfold lastFree at hl ⊢
        rw [lastPid_insert proc mem hole r hr]
        exact hl
      | rel pid =>
        simp only [applyOp, Option.map_eq_some'] at hop
        obtain ⟨r, hr, hfst⟩ := hop
        rw [← hfst]
        exact lastFree_release pid mem r hr hl

/-- C18: in every memory list reached from the initial single free segment by
a sequence of `insert` and `release` operations, the last segment is free; so
every occupied segment has a right neighbour, and `release` of an occupied
pid that owns a segment finds a non-null `n` (it completes, and the branch for
the end of the list is not taken). -/
theorem last_segment_free (ops : List Op) (mem : List MemNode)
    (hrun : runOps ops memInit = some mem) :
    lastFree mem ∧
    (∀ (i : Nat) (x : MemNode), mem[i]? = some x → x.pid ≠ HOLE →
      ∃ n, mem[i + 1]? = some n) ∧
    (∀ pid : Int, pid ≠ HOLE → (∃ x ∈ mem, x.pid = pid) →
      ∃ i n r, find_entry pid mem 0 = some i ∧ mem[i + 1]? = some n ∧
        release pid mem = some r) := by
  have hl : lastFree mem := lastFree_runOps ops memInit mem hrun (by decide)
  refine ⟨hl, fun i x hx hocc => occupied_has_next mem hl i x hx hocc, ?_⟩
  intro pid hpid hown
  obtain ⟨pre, m, post, hmem, hm, hpre⟩ := split_at_owner pid mem hown
  have hfind : find_entry pid mem 0 = some pre.length := by
    rw [hmem, find_entry_append pid pre m post 0 hpre hm]
    simp
  have hget : mem[pre.length]? = some m := by
    rw [hmem]; exact getElem?_at pre m post
  obtain ⟨n, hn⟩ := occupied_has_next mem hl pre.length m hget (by rw [hm]; exact hpid)
  have hlen : 2 ≤ mem.length := by
    have : pre.length + 1 < mem.length := by
      by_contra hc
      rw [List.getElem?_eq_none_iff.2 (by omega)] at hn
      simp at hn
    omega
  obtain ⟨r, hr⟩ := release_completes pid mem hown hlen
  exact ⟨pre.length, n, r, hfind, hn, hr⟩

/-- C18 witness: after placing processes 0 (size 100, an exact fit) and
releasing nothing, the list is `[P0,0,100] -> [H,100,0]`: its last segment is a
hole of size 0 and process 0 has it as right neighbour. -/
theorem last_segment_free_witness :
    lastFree [⟨0, 0, 100⟩, ⟨HOLE, 100, 0⟩] ∧
    (∀ (i : Nat) (x : MemNode),
      ([⟨0, 0, 100⟩, ⟨HOLE, 100, 0⟩] : List MemNode)[i]? = some x → x.pid ≠ HOLE →
      ∃ n, ([⟨0, 0, 100⟩, ⟨HOLE, 100, 0⟩] : List MemNode)[i + 1]? = some n) ∧
    (∀ pid : Int, pid ≠ HOLE →
      (∃ x ∈ ([⟨0, 0, 100⟩, ⟨HOLE, 100, 0⟩] : List MemNode), x.pid = pid) →
      ∃ i n r, find_entry pid [⟨0, 0, 100⟩, ⟨HOLE, 100, 0⟩] 0 = some i ∧
        ([⟨0, 0, 100⟩, ⟨HOLE, 100, 0⟩] : List MemNode)[i + 1]? = some n ∧
        release pid [⟨0, 0, 100⟩, ⟨HOLE, 100, 0⟩] = some r) :=
  last_segment_free [Op.ins (mkProc 0 100) 0] [⟨0, 0, 100⟩, ⟨HOLE, 100, 0⟩] (by decide)

/-! ## Best fit within the bound of `least_diff` -/

theorem spans_size_le (mem : List MemNode) (s t : Int) (hsp : spans s mem t)
    (hnn : nonnegSizes mem) : s ≤ t ∧ ∀ x ∈ mem, x.size ≤ t - s := by
  induction mem generalizing s with
  | nil =>
    have e : s = t := hsp
    exact ⟨by omega, by simp⟩
  | cons a rest ih =>
    obtain ⟨-, h2⟩ := hsp
    have ha : 0 ≤ a.size := hnn a (List.mem_cons_self _ _)
    obtain ⟨h3, h4⟩ := ih (s + a.size) h2 (fun z hz => hnn z (List.mem_cons_of_mem _ hz))
    refine ⟨by omega, ?_⟩
    intro x hx
    rcases List.mem_cons.1 hx with e | e
    · subst e; omega
    · have := h4 x e
      omega

/-- C19: when every free segment has size below the requested size plus 100,
`best_fit` started at the head returns the first segment in list order among
the free segments of sufficient size with least difference, and returns null
exactly when no free segment is large enough; the precondition holds for every
list laid out contiguously from 0 to `MEMSIZE` (sizes not negative) and every
requested size of at least 1. -/
theorem best_fit_bounded (proc : Process) (mem : List MemNode) :
    ((∀ x ∈ mem, x.pid = HOLE → x.size < proc.size + 100) →
      (∀ i, best_fit proc mem 0 = some i →
        ∃ x, mem[i]? = some x ∧ x.pid = HOLE ∧ proc.size ≤ x.size ∧
          (∀ (j : Nat) (y : MemNode), mem[j]? = some y → y.pid = HOLE →
            proc.size ≤ y.size → x.size - proc.size ≤ y.size - proc.size) ∧
          (∀ (j : Nat) (y : MemNode), j < i → mem[j]? = some y → y.pid = HOLE →
            proc.size ≤ y.size → x.size - proc.size < y.size - proc.size)) ∧
      (best_fit proc mem 0 = none ↔
        ∀ x ∈ mem, ¬ (x.pid = HOLE ∧ proc.size ≤ x.size))) ∧
    (Layout mem MEMSIZE → nonnegSizes mem → 1 ≤ proc.size →
      ∀ x ∈ mem, x.pid = HOLE → x.size < proc.size + 100) := by
  constructor
  · intro hbound
    simp only [best_fit, List.drop_zero]
    rcases best_fit_loop_spec proc.size mem 0 none 100 with
      ⟨h1, h2⟩ | ⟨j, x, h1, h2, h3, h4, h5, h6⟩
    · rw [h1]
      refine ⟨fun i hi => by simp at hi, ?_⟩
      simp only [true_iff]
      intro y hy hc
      have hb := hbound y hy hc.1
      have hd := h2 y hy ((fits_iff _ _).2 hc)
      omega
    · rw [h1]
      rw [fits_iff] at h3
      constructor
      · intro i hi
        simp only [Option.some.injEq] at hi
        have hij : i = j := by omega
        subst hij
        refine ⟨x, h2, h3.1, h3.2, ?_, ?_⟩
        · intro j2 y hy hfree hsize
          exact h5 j2 y hy ((fits_iff _ _).2 ⟨hfree, hsize⟩)
        · intro j2 y hj hy hfree hsize
          exact h6 j2 y hj hy ((fits_iff _ _).2 ⟨hfree, hsize⟩)
      · simp only [reduceCtorEq, false_iff, not_forall, not_not]
        exact ⟨x, List.getElem?_mem h2, h3⟩
  · intro hlay hnn hreq x hx _
    rw [layout_iff] at hlay
    have hle := (spans_size_le mem 0 MEMSIZE hlay.2 hnn).2 x hx
    have hM : MEMSIZE = 100 := rfl
    omega

/-- C19 witness: `memSample` is laid out from 0 to 100; a request of size 15
gets the hole of size 20 at position 2, the only free segment that fits. -/
theorem best_fit_bounded_witness :
    (∀ x ∈ memSample, x.pid = HOLE → x.size < (mkProc 7 15).size + 100) ∧
    ∃ x, memSample[2]? = some x ∧ x.pid = HOLE ∧ (mkProc 7 15).size ≤ x.size ∧
      (∀ (j : Nat) (y : MemNode), memSample[j]? = some y → y.pid = HOLE →
        (mkProc 7 15).size ≤ y.size →
        x.size - (mkProc 7 15).size ≤ y.size - (mkProc 7 15).size) ∧
      (∀ (j : Nat) (y : MemNode), j < 2 → memSample[j]? = some y → y.pid = HOLE →
        (mkProc 7 15).size ≤ y.size →
        x.size - (mkProc 7 15).size < y.size - (mkProc 7 15).size) :=
  ⟨(best_fit_bounded (mkProc 7 15) memSample).2 (by decide) (by decide) (by decide),
   ((best_fit_bounded (mkProc 7 15) memSample).1
      ((best_fit_bounded (mkProc 7 15) memSample).2 (by decide) (by decide) (by decide))).1 2
      (by decide)⟩

/-! ## The fused first loop against separate passes -/

theorem fused_eq_passes_from (t : Int) (i : Nat) (ps : List Process) (g : Globals) :
    (arrivals_completions t i ps g).map (fun r => (r.1, r.2.1)) =
      (completion_pass t i (arrival_pass t i ps).1 g).map (fun r => (r.1, r.2.1)) := by
  induction ps generalizing i g with
  | nil => rfl
  | cons p ps ih =>
    simp only [arrivals_completions, arrival_pass, completion_pass]
    cases hc : completion_check t i (arrival_check t i p).1 g with
    | none => rfl
    | some r =>
      obtain ⟨p2, g2, e2⟩ := r
      have h := ih (i + 1) g2
      dsimp only
      cases h1 : arrivals_completions t (i + 1) ps g2 with
      | none =>
        rw [h1] at h
        cases h2 : completion_pass t (i + 1) (arrival_pass t (i + 1) ps).1 g2 with
        | none => rfl
        | some r2 => rw [h2] at h; simp at h
      | some r1 =>
        rw [h1] at h
        cases h2 : completion_pass t (i + 1) (arrival_pass t (i + 1) ps).1 g2 with
        | none => rw [h2] at h; simp at h
        | some r2 =>
          rw [h2] at h
          simp only [Option.map_some', Option.some.injEq, Prod.mk.injEq] at h ⊢
          exact ⟨by rw [h.1], h.2⟩

theorem fused_events_perm_from (t : Int) (i : Nat) (ps : List Process) (g : Globals)
    (r1 r2 : List Process × Globals × List Event)
    (h1 : arrivals_completions t i ps g = some r1)
    (h2 : completion_pass t i (arrival_pass t i ps).1 g = some r2) :
    r1.2.2.Perm ((arrival_pass t i ps).2 ++ r2.2.2) := by
  induction ps generalizing i g r1 r2 with
  | nil =>
    simp only [arrivals_completions, Option.some.injEq] at h1
    simp only [arrival_pass, completion_pass, Option.some.injEq] at h2
    subst h1 h2
    exact List.Perm.refl _
  | cons p ps ih =>
    simp only [arrivals_completions] at h1
    simp only [arrival_pass, completion_pass] at h2 ⊢
    cases hc : completion_check t i (arrival_check t i p).1 g with
    | none => rw [hc] at h1; simp at h1
    | some r =>
      obtain ⟨p2, g2, e2⟩ := r
      rw [hc] at h1 h2
      simp only at h1 h2
      cases ha : arrivals_completions t (i + 1) ps g2 with
      | none => rw [ha] at h1; simp at h1
      | some ra =>
        cases hb : completion_pass t (i + 1) (arrival_pass t (i + 1) ps).1 g2 with
        | none => rw [hb] at h2; simp at h2
        | some rb =>
          rw [ha] at h1
          rw [hb] at h2
          simp only [Option.some.injEq] at h1 h2
          subst h1 h2
          have hp := ih (i + 1) g2 ra rb ha hb
          simp only [List.append_assoc]
          refine List.Perm.append_left _ ?_
          refine (List.Perm.append_left e2 hp).trans ?_
          rw [← List.append_assoc, ← List.append_assoc]
          exact List.Perm.append_right _ List.perm_append_comm

/-- C20: for every process table, memory list, cursor and tick, the fused
loop (arrival check then completion check per process, in ascending index
order) and a full arrival pass followed by a full completion pass either both
fail or end with the same processes, the same memory list and the same
`last_location`; the events they emit are the same up to their order. -/
theorem fused_loop_equals_passes (t : Int) (ps : List Process) (g : Globals) :
    (arrivals_completions t 0 ps g).map (fun r => (r.1, r.2.1)) =
      (arrival_then_completion t ps g).map (fun r => (r.1, r.2.1)) ∧
    (∀ r1 r2, arrivals_completions t 0 ps g = some r1 →
      arrival_then_completion t ps g = some r2 → r1.2.2.Perm r2.2.2) := by
  constructor
  · rw [fused_eq_passes_from]
    unfold arrival_then_completion
    cases completion_pass t 0 (arrival_pass t 0 ps).1 g with
    | none => rfl
    | some r => rfl
  · intro r1 r2 h1 h2
    unfold arrival_then_completion at h2
    cases hb : completion_pass t 0 (arrival_pass t 0 ps).1 g with
    | none => rw [hb] at h2; simp at h2
    | some rb =>
      rw [hb] at h2
      simp only [Option.some.injEq] at h2
      subst h2
      exact fused_events_perm_from t 0 ps g r1 rb h1 hb

/-- C20 witness: at tick 1 on `procsTick1` both versions finish process 0,
let process 1 arrive and merge the memory back into one hole; the fused loop
reports `FINISHED:P0` before `ARRIVED:P1`, the two passes report them in the
opposite order. -/
theorem fused_loop_equals_passes_witness :
    arrivals_completions 1 0 procsTick1 globalsTick1 =
      some ([⟨0, 0, 10, 0, FINISHED⟩, ⟨1, 1, 20, 2, WAITING⟩], ⟨[⟨HOLE, 0, 100⟩], 0⟩,
        [⟨1, Message.FINISHED, 0⟩, ⟨1, Message.ARRIVED, 1⟩]) ∧
    arrival_then_completion 1 procsTick1 globalsTick1 =
      some ([⟨0, 0, 10, 0, FINISHED⟩, ⟨1, 1, 20, 2, WAITING⟩], ⟨[⟨HOLE, 0, 100⟩], 0⟩,
        [⟨1, Message.ARRIVED, 1⟩, ⟨1, Message.FINISHED, 0⟩]) ∧
    (arrivals_completions 1 0 procsTick1 globalsTick1).map (fun r => (r.1, r.2.1)) =
      (arrival_then_completion 1 procsTick1 globalsTick1).map (fun r => (r.1, r.2.1)) :=
  ⟨by decide, by decide, (fused_loop_equals_passes 1 procsTick1 globalsTick1).1⟩

/-! ## Segments owned by a pid under `insert` and `release` -/

theorem segsOf_append (k : Int) (a b : List MemNode) :
    segsOf k (a ++ b) = segsOf k a ++ segsOf k b := by
  simp [segsOf]

theorem segsOf_cons_eq (k : Int) (x : MemNode) (l : List MemNode) (h : x.pid = k) :
    segsOf k (x :: l) = x :: segsOf k l := by
  simp [segsOf, h]

theorem segsOf_cons_ne (k : Int) (x : MemNode) (l : List MemNode) (h : x.pid ≠ k) :
    segsOf k (x :: l) = segsOf k l := by
  simp [segsOf, h]

theorem segsOf_eq_nil (k : Int) (l : List MemNode) (h : ∀ x ∈ l, x.pid ≠ k) :
    segsOf k l = [] := by
  simp only [segsOf, List.filter_eq_nil_iff, decide_eq_true_eq]
  exact h

theorem segsOf_release_other (pid k : Int) (mem : List MemNode) (r : List MemNode × Nat)
    (hr : release pid mem = some r) (hk : k ≠ HOLE) (hkp : k ≠ pid) :
    segsOf k r.1 = segsOf k mem := by
  have hh : HOLE ≠ k := fun e => hk e.symm
  rcases release_shape pid mem r hr with
    ⟨pre, p, m, post, hmem, hm, -, -, hp, -, hres⟩ |
    ⟨pre, p, m, n, post, hmem, hm, -, -, hp, hn, hres⟩ |
    ⟨pre, m, n, post, hmem, hm, -, -, hn, hres⟩ |
    ⟨pre, m, post, hmem, hm, -, -, -, -, hres⟩
  · subst hmem hres
    have hmk : m.pid ≠ k := by rw [hm]; exact fun e => hkp e.symm
    rw [segsOf_append, segsOf_append, segsOf_cons_ne k _ _ (by rw [hp]; exact hh),
      segsOf_cons_ne k p _ (by rw [hp]; exact hh), segsOf_cons_ne k m _ hmk]
  · subst hmem hres
    have hmk : m.pid ≠ k := by rw [hm]; exact fun e => hkp e.symm
    rw [segsOf_append, segsOf_append, segsOf_cons_ne k _ _ (by rw [hp]; exact hh),
      segsOf_cons_ne k p _ (by rw [hp]; exact hh), segsOf_cons_ne k m _ hmk,
      segsOf_cons_ne k n _ (by rw [hn]; exact hh)]
  · subst hmem hres
    have hmk : m.pid ≠ k := by rw [hm]; exact fun e => hkp e.symm
    rw [segsOf_append, segsOf_append, segsOf_cons_ne k _ _ (by rw [hn]; exact hh),
      segsOf_cons_ne k m _ hmk, segsOf_cons_ne k n _ (by rw [hn]; exact hh)]
  · subst hmem hres
    have hmk : m.pid ≠ k := by rw [hm]; exact fun e => hkp e.symm
    rw [segsOf_append, segsOf_append, segsOf_cons_ne k _ _ hh, segsOf_cons_ne k m _ hmk]

theorem segsOf_release_self (pid : Int) (mem : List MemNode) (r : List MemNode × Nat)
    (hr : release pid mem = some r) (hk : pid ≠ HOLE) :
    segsOf pid r.1 = (segsOf pid mem).tail := by
  have hh : HOLE ≠ pid := fun e => hk e.symm
  rcases release_shape pid mem r hr with
    ⟨pre, p, m, post, hmem, hm, -, hpre, hp, -, hres⟩ |
    ⟨pre, p, m, n, post, hmem, hm, -, hpre, hp, hn, hres⟩ |
    ⟨pre, m, n, post, hmem, hm, hpre, -, hn, hres⟩ |
    ⟨pre, m, post, hmem, hm, hpre, -, -, -, hres⟩
  · subst hmem hres
    rw [segsOf_append, segsOf_append, segsOf_eq_nil pid pre hpre,
      segsOf_cons_ne pid _ _ (by rw [hp]; exact hh),
      segsOf_cons_ne pid p _ (by rw [hp]; exact hh), segsOf_cons_eq pid m _ hm]
    rfl
  · subst hmem hres
    rw [segsOf_append, segsOf_append, segsOf_eq_nil pid pre hpre,
      segsOf_cons_ne pid _ _ (by rw [hp]; exact hh),
      segsOf_cons_ne pid p _ (by rw [hp]; exact hh), segsOf_cons_eq pid m _ hm,
      segsOf_cons_ne pid n _ (by rw [hn]; exact hh)]
    rfl
  · subst hmem hres
    rw [segsOf_append, segsOf_append, segsOf_eq_nil pid pre hpre,
      segsOf_cons_ne pid _ _ (by rw [hn]; exact hh), segsOf_cons_eq pid m _ hm,
      segsOf_cons_ne pid n _ (by rw [hn]; exact hh)]
    rfl
  · subst hmem hres
    rw [segsOf_append, segsOf_append, segsOf_eq_nil pid pre hpre,
      segsOf_cons_ne pid _ _ hh, segsOf_cons_eq pid m _ hm]
    rfl

theorem segsOf_insert_other (proc : Process) (mem : List MemNode) (hole : Nat) (h : MemNode)
    (r : List MemNode × Nat) (hget : mem[hole]? = some h) (hfree : h.pid = HOLE)
    (hr : insert proc mem hole = some r) (k : Int) (hk : k ≠ HOLE) (hkp : k ≠ proc.pid) :
    segsOf k r.1 = segsOf k mem := by
  have hh : HOLE ≠ k := fun e => hk e.symm
  obtain ⟨pre, post, hmem, hlen⟩ := split_at_index mem hole h hget
  subst hmem hlen
  rw [insert_at] at hr
  simp only [Option.some.injEq] at hr
  subst hr
  rw [segsOf_append, segsOf_append, segsOf_cons_ne k _ _ (fun e => hkp e.symm),
    segsOf_cons_ne k _ _ (by rw [hfree]; exact hh),
    segsOf_cons_ne k h _ (by rw [hfree]; exact hh)]

theorem segsOf_insert_self (proc : Process) (mem : List MemNode) (hole : Nat) (h : MemNode)
    (r : List MemNode × Nat) (hget : mem[hole]? = some h) (hfree : h.pid = HOLE)
    (hr : insert proc mem hole = some r) (hk : proc.pid ≠ HOLE)
    (hnone : segsOf proc.pid mem = []) :
    segsOf proc.pid r.1 = [⟨proc.pid, h.start, proc.size⟩] := by
  have hh : HOLE ≠ proc.pid := fun e => hk e.symm
  obtain ⟨pre, post, hmem, hlen⟩ := split_at_index mem hole h hget
  subst hmem hlen
  rw [insert_at] at hr
  simp only [Option.some.injEq] at hr
  subst hr
  rw [segsOf_append, segsOf_cons_ne proc.pid h _ (by rw [hfree]; exact hh)] at hnone
  obtain ⟨h1, h2⟩ := List.append_eq_nil.1 hnone
  rw [segsOf_append, segsOf_cons_eq proc.pid _ _ rfl,
    segsOf_cons_ne proc.pid _ _ (by rw [hfree]; exact hh), h1, h2]
  rfl

/-! ## Order of the events of one tick -/

theorem pairwise_of_left (l : List Event) (R : Event → Event → Prop)
    (h : ∀ x ∈ l, ∀ y, R x y) : l.Pairwise R := by
  induction l with
  | nil => exact List.Pairwise.nil
  | cons a rest ih =>
    refine List.Pairwise.cons (fun y _ => h a (List.mem_cons_self _ _) y) ?_
    exact ih (fun x hx => h x (List.mem_cons_of_mem _ hx))

theorem pairwise_of_right (l : List Event) (R : Event → Event → Prop)
    (h : ∀ y ∈ l, ∀ x, R x y) : l.Pairwise R := by
  induction l with
  | nil => exact List.Pairwise.nil
  | cons a rest ih =>
    refine List.Pairwise.cons (fun y hy => h y (List.mem_cons_of_mem _ hy) a) ?_
    exact ih (fun x hx => h x (List.mem_cons_of_mem _ hx))

theorem arrival_check_events (t : Int) (i : Nat) (p : Process) :
    (arrival_check t i p).2 = [] ∨
      (arrival_check t i p).2 = [⟨t, Message.ARRIVED, (i : Int)⟩] := by
  unfold arrival_check
  split_ifs
  · right; rfl
  · left; rfl

theorem completion_check_events (t : Int) (i : Nat) (p : Process) (g : Globals)
    (r : Process × Globals × List Event) (h : completion_check t i p g = some r) :
    r.2.2 = [] ∨ r.2.2 = [⟨t, Message.FINISHED, (i : Int)⟩] := by
  unfold completion_check at h
  split_ifs at h
  · cases hrel : release (i : Int) g.memory with
    | none => rw [hrel] at h; simp at h
    | some q =>
      rw [hrel] at h
      simp only [Option.some.injEq] at h
      subst h
      right; rfl
  · simp only [Option.some.injEq] at h
    subst h
    left; rfl

theorem placement_check_events (ft : FitType) (t : Int) (i : Nat) (p : Process) (g : Globals)
    (r : Process × Globals × List Event) (h : placement_check ft t i p g = some r) :
    r.2.2 = [] ∨ r.2.2 = [⟨t, Message.INMEMORY, (i : Int)⟩] := by
  by_cases hw : p.status = WAITING
  · simp only [placement_check, hw, if_true] at h
    generalize (if ft = FitType.n then g.last_location else 0) = start at h
    cases hfit : fit_algorithm ft p g.memory start g.last_location with
    | none => rw [hfit] at h; simp at h
    | some q =>
      obtain ⟨res, last⟩ := q
      rw [hfit] at h
      cases res with
      | none =>
        simp only [Option.some.injEq] at h
        subst h
        left; rfl
      | some m =>
        simp only at h
        cases hins : insert p g.memory m with
        | none => rw [hins] at h; simp at h
        | some q2 =>
          rw [hins] at h
          simp only [Option.some.injEq] at h
          subst h
          right; rfl
  · simp only [placement_check, hw, if_false, Option.some.injEq] at h
    subst h
    left; rfl

theorem arrivals_completions_events (t : Int) (i : Nat) (ps : List Process) (g : Globals)
    (r : List Process × Globals × List Event) (h : arrivals_completions t i ps g = some r) :
    (∀ x ∈ r.2.2, (x.message = Message.ARRIVED ∨ x.message = Message.FINISHED) ∧
      (i : Int) ≤ x.pid) ∧ r.2.2.Pairwise scanOrder := by
  induction ps generalizing i g r with
  | nil =>
    simp only [arrivals_completions, Option.some.injEq] at h
    subst h
    exact ⟨by simp, List.Pairwise.nil⟩
  | cons p ps ih =>
    simp only [arrivals_completions] at h
    cases hc : completion_check t i (arrival_check t i p).1 g with
    | none => rw [hc] at h; simp at h
    | some q =>
      obtain ⟨p2, g2, e2⟩ := q
      rw [hc] at h
      simp only at h
      cases ha : arrivals_completions t (i + 1) ps g2 with
      | none => rw [ha] at h; simp at h
      | some ra =>
        rw [ha] at h
        simp only [Option.some.injEq] at h
        subst h
        obtain ⟨ih1, ih2⟩ := ih (i + 1) g2 ra ha
        have hA := arrival_check_events t i p
        have hF : e2 = [] ∨ e2 = [⟨t, Message.FINISHED, (i : Int)⟩] :=
          completion_check_events t i _ g _ hc
        have hrest : ∀ x ∈ ra.2.2, (i : Int) < x.pid := by
          intro x hx
          have := (ih1 x hx).2
          push_cast at this
          omega
        constructor
        · intro x hx
          simp only [List.mem_append] at hx
          rcases hx with (hx | hx) | hx
          · rcases hA with e | e
            · rw [e] at hx; simp at hx
            · rw [e] at hx
              simp only [List.mem_singleton] at hx
              subst hx
              exact ⟨Or.inl rfl, le_refl _⟩
          · rcases hF with e | e
            · rw [e] at hx; simp at hx
            · rw [e] at hx
              simp only [List.mem_singleton] at hx
              subst hx
              exact ⟨Or.inr rfl, le_refl _⟩
          · exact ⟨(ih1 x hx).1, le_of_lt (hrest x hx)⟩
        · show ((arrival_check t i p).2 ++ e2 ++ ra.2.2).Pairwise scanOrder
          rw [List.pairwise_append, List.pairwise_append]
          refine ⟨⟨?_, ?_, ?_⟩, ih2, ?_⟩
          · rcases hA with e | e <;> rw [e] <;> simp
          · rcases hF with e | e <;> rw [e] <;> simp
          · intro x hx y hy
            rcases hA with e | e
            · rw [e] at hx; simp at hx
            · rcases hF with e3 | e3
              · rw [e3] at hy; simp at hy
              · rw [e] at hx
                rw [e3] at hy
                simp only [List.mem_singleton] at hx hy
                subst hx hy
                exact Or.inr ⟨rfl, rfl, rfl⟩
          · intro x hx y hy
            left
            have hy2 := hrest y hy
            simp only [List.mem_append] at hx
            rcases hx with hx | hx
            · rcases hA with e | e
              · rw [e] at hx; simp at hx
              · rw [e] at hx
                simp only [List.mem_singleton] at hx
                subst hx
                exact hy2
            · rcases hF with e | e
              · rw [e] at hx; simp at hx
              · rw [e] at hx
                simp only [List.mem_singleton] at hx
                subst hx
                exact hy2

theorem placements_events (ft : FitType) (t : Int) (i : Nat) (ps : List Process) (g : Globals)
    (r : List Process × Globals × List Event) (h : placements ft t i ps g = some r) :
    (∀ x ∈ r.2.2, x.message = Message.INMEMORY ∧ (i : Int) ≤ x.pid) ∧
      r.2.2.Pairwise (fun x y => x.pid < y.pid) := by
  induction ps generalizing i g r with
  | nil =>
    simp only [placements, Option.some.injEq] at h
    subst h
    exact ⟨by simp, List.Pairwise.nil⟩
  | cons p ps ih =>
    simp only [placements] at h
    cases hc : placement_check ft t i p g with
    | none => rw [hc] at h; simp at h
    | some q =>
      obtain ⟨p2, g2, e2⟩ := q
      rw [hc] at h
      simp only at h
      cases ha : placements ft t (i + 1) ps g2 with
      | none => rw [ha] at h; simp at h
      | some ra =>
        rw [ha] at h
        simp only [Option.some.injEq] at h
        subst h
        obtain ⟨ih1, ih2⟩ := ih (i + 1) g2 ra ha
        have hP : e2 = [] ∨ e2 = [⟨t, Message.INMEMORY, (i : Int)⟩] :=
          placement_check_events ft t i p g _ hc
        have hrest : ∀ x ∈ ra.2.2, (i : Int) < x.pid := by
          intro x hx
          have := (ih1 x hx).2
          push_cast at this
          omega
        constructor
        · intro x hx
          simp only [List.mem_append] at hx
          rcases hx with hx | hx
          · rcases hP with e | e
            · rw [e] at hx; simp at hx
            · rw [e] at hx
              simp only [List.mem_singleton] at hx
              subst hx
              exact ⟨rfl, le_refl _⟩
          · exact ⟨(ih1 x hx).1, le_of_lt (hrest x hx)⟩
        · show (e2 ++ ra.2.2).Pairwise (fun x y => x.pid < y.pid)
          rw [List.pairwise_append]
          refine ⟨?_, ih2, ?_⟩
          · rcases hP with e | e <;> rw [e] <;> simp
          · intro x hx y hy
            rcases hP with e | e
            · rw [e] at hx; simp at hx
            · rw [e] at hx
              simp only [List.mem_singleton] at hx
              subst hx
              exact hrest y hy

set_option maxRecDepth 100000 in
/-- C14 (as stated, refuted): with first fit on the workload `inputStaggered`
the events of tick 1 are `FINISHED:P0`, `ARRIVED:P1`, `INMEMORY:P1` in this
order, so an `ARRIVED` event does not precede every `FINISHED` event. -/
theorem finished_before_arrived :
    (run_ticks FitType.f 1 (init_sim inputStaggered)).bind
        (fun s => (tick FitType.f 1 s).map Prod.snd) =
      some [⟨1, Message.FINISHED, 0⟩, ⟨1, Message.ARRIVED, 1⟩, ⟨1, Message.INMEMORY, 1⟩] ∧
    ¬ precedes Message.ARRIVED Message.FINISHED
      [⟨1, Message.FINISHED, 0⟩, ⟨1, Message.ARRIVED, 1⟩, ⟨1, Message.INMEMORY, 1⟩] := by
  refine ⟨by decide, ?_⟩
  simp [precedes]

/-- C14 (amended): the events of one tick are those of the first loop followed
by those of the placement loop.  The first loop emits only `ARRIVED` and
`FINISHED` events, in ascending pid order and for one pid `ARRIVED` before
`FINISHED`; the placement loop emits only `INMEMORY` events, in ascending pid
order.  So every `ARRIVED` and every `FINISHED` event precedes every
`INMEMORY` event. -/
theorem tick_event_order (ft : FitType) (t : Int) (s : Sim) (r : Sim × List Event)
    (h : tick ft t s = some r) :
    ∃ e1 e2, r.2 = e1 ++ e2 ∧
      (∀ x ∈ e1, x.message = Message.ARRIVED ∨ x.message = Message.FINISHED) ∧
      (∀ x ∈ e2, x.message = Message.INMEMORY) ∧
      e1.Pairwise scanOrder ∧ e2.Pairwise (fun x y => x.pid < y.pid) ∧
      precedes Message.ARRIVED Message.INMEMORY r.2 ∧
      precedes Message.FINISHED Message.INMEMORY r.2 := by
  unfold tick at h
  cases h1 : arrivals_completions t 0 s.process s.globals with
  | none => rw [h1] at h; simp at h
  | some r1 =>
    obtain ⟨ps1, g1, e1⟩ := r1
    rw [h1] at h
    simp only at h
    cases h2 : placements ft t 0 ps1 g1 with
    | none => rw [h2] at h; simp at h
    | some r2 =>
      obtain ⟨ps2, g2, e2⟩ := r2
      rw [h2] at h
      simp only [Option.some.injEq] at h
      subst h
      obtain ⟨a1, a2⟩ := arrivals_completions_events t 0 s.process s.globals _ h1
      obtain ⟨b1, b2⟩ := placements_events ft t 0 ps1 g1 _ h2
      have hE1 : ∀ x ∈ e1, x.message = Message.ARRIVED ∨ x.message = Message.FINISHED :=
        fun x hx => (a1 x hx).1
      have hE2 : ∀ x ∈ e2, x.message = Message.INMEMORY := fun x hx => (b1 x hx).1
      have hnot : ∀ x ∈ e1, x.message ≠ Message.INMEMORY := by
        intro x hx hc
        rcases hE1 x hx with e | e <;> rw [e] at hc <;> exact absurd hc (by decide)
      refine ⟨e1, e2, rfl, hE1, hE2, a2, b2, ?_, ?_⟩
      · show (e1 ++ e2).Pairwise _
        rw [List.pairwise_append]
        refine ⟨pairwise_of_left e1 _ (fun x hx y hc => hnot x hx hc.1),
          pairwise_of_right e2 _ (fun y hy x hc => ?_), fun x hx y _ hc => hnot x hx hc.1⟩
        have := hE2 y hy
        rw [hc.2] at this
        exact absurd this (by decide)
      · show (e1 ++ e2).Pairwise _
        rw [List.pairwise_append]
        refine ⟨pairwise_of_left e1 _ (fun x hx y hc => hnot x hx hc.1),
          pairwise_of_right e2 _ (fun y hy x hc => ?_), fun x hx y _ hc => hnot x hx hc.1⟩
        have := hE2 y hy
        rw [hc.2] at this
        exact absurd this (by decide)

/-- C14 witness: tick 1 on `procsTick1` with first fit. -/
theorem tick_event_order_witness :
    ∃ e1 e2,
      ([⟨1, Message.FINISHED, 0⟩, ⟨1, Message.ARRIVED, 1⟩, ⟨1, Message.INMEMORY, 1⟩] :
        List Event) = e1 ++ e2 ∧
      (∀ x ∈ e1, x.message = Message.ARRIVED ∨ x.message = Message.FINISHED) ∧
      (∀ x ∈ e2, x.message = Message.INMEMORY) ∧
      e1.Pairwise scanOrder ∧ e2.Pairwise (fun x y => x.pid < y.pid) ∧
      precedes Message.ARRIVED Message.INMEMORY
        [⟨1, Message.FINISHED, 0⟩, ⟨1, Message.ARRIVED, 1⟩, ⟨1, Message.INMEMORY, 1⟩] ∧
      precedes Message.FINISHED Message.INMEMORY
        [⟨1, Message.FINISHED, 0⟩, ⟨1, Message.ARRIVED, 1⟩, ⟨1, Message.INMEMORY, 1⟩] :=
  tick_event_order FitType.f 1 ⟨procsTick1, globalsTick1⟩
    (⟨[⟨0, 0, 10, 0, FINISHED⟩, ⟨1, 1, 20, 1, INMEMORY⟩],
        ⟨[⟨1, 0, 20⟩, ⟨HOLE, 20, 80⟩], 0⟩⟩,
      [⟨1, Message.FINISHED, 0⟩, ⟨1, Message.ARRIVED, 1⟩, ⟨1, Message.INMEMORY, 1⟩])
    (by decide)

/-! ## Remaining service time -/

theorem arrival_check_ok (t : Int) (i : Nat) (p : Process) (h : procOk p) :
    procOk (arrival_check t i p).1 := by
  unfold arrival_check
  split_ifs with hc
  · obtain ⟨h1, h2, -⟩ := h
    exact ⟨h1, fun _ => h2 (Or.inl hc.2), Or.inr (Or.inl rfl)⟩
  · exact h

theorem completion_check_ok (t : Int) (i : Nat) (p : Process) (g : Globals)
    (r : Process × Globals × List Event) (h : completion_check t i p g = some r)
    (hp : procOk p) : procReady r.1 := by
  unfold completion_check at h
  split_ifs at h with hc
  · cases hrel : release (i : Int) g.memory with
    | none => rw [hrel] at h; simp at h
    | some q =>
      rw [hrel] at h
      simp only [Option.some.injEq] at h
      subst h
      refine ⟨⟨hp.1, ?_, Or.inr (Or.inr (Or.inr rfl))⟩, ?_⟩
      · intro hs
        rcases hs with e | e
        · exact absurd (show FINISHED = NOTARRIVED from e) (by decide)
        · exact absurd (show FINISHED = WAITING from e) (by decide)
      · intro e
        exact absurd (show FINISHED = INMEMORY from e) (by decide)
  · simp only [Option.some.injEq] at h
    subst h
    refine ⟨hp, fun hs => ?_⟩
    have hs2 : p.status = INMEMORY := hs
    have h0 := hp.1
    have hne : p.service ≠ 0 := by
      intro e
      apply hc
      refine ⟨e, ?_⟩
      rw [hs2]
      decide
    show 1 ≤ p.service
    omega

theorem placement_check_ok (ft : FitType) (t : Int) (i : Nat) (p : Process) (g : Globals)
    (r : Process × Globals × List Event) (h : placement_check ft t i p g = some r)
    (hp : procReady p) : procReady r.1 := by
  by_cases hw : p.status = WAITING
  · simp only [placement_check, hw, if_true] at h
    generalize (if ft = FitType.n then g.last_location else 0) = start at h
    cases hfit : fit_algorithm ft p g.memory start g.last_location with
    | none => rw [hfit] at h; simp at h
    | some q =>
      obtain ⟨res, last⟩ := q
      rw [hfit] at h
      cases res with
      | none =>
        simp only [Option.some.injEq] at h
        subst h
        exact hp
      | some m =>
        simp only at h
        cases hins : insert p g.memory m with
        | none => rw [hins] at h; simp at h
        | some q2 =>
          rw [hins] at h
          simp only [Option.some.injEq] at h
          subst h
          have h1 : 1 ≤ p.service := hp.1.2.1 (Or.inr hw)
          refine ⟨⟨hp.1.1, fun hs => ?_, Or.inr (Or.inr (Or.inl rfl))⟩, fun _ => h1⟩
          rcases hs with e | e
          · exact absurd (show INMEMORY = NOTARRIVED from e) (by decide)
          · exact absurd (show INMEMORY = WAITING from e) (by decide)
  · simp only [placement_check, hw, if_false, Option.some.injEq] at h
    subst h
    exact hp

theorem service_check_ok (p : Process) (hp : procReady p) : procOk (service_check p) := by
  unfold service_check
  split_ifs with hc
  · have h1 := hp.2 hc
    refine ⟨?_, fun hs => ?_, Or.inr (Or.inr (Or.inl hc))⟩
    · show 0 ≤ p.service - 1
      omega
    · have hs2 : p.status = NOTARRIVED ∨ p.status = WAITING := hs
      rw [hc] at hs2
      rcases hs2 with e | e <;> exact absurd e (by decide)
  · exact hp.1

theorem arrivals_completions_ok (t : Int) (i : Nat) (ps : List Process) (g : Globals)
    (r : List Process × Globals × List Event) (h : arrivals_completions t i ps g = some r)
    (hp : ∀ p ∈ ps, procOk p) : ∀ p ∈ r.1, procReady p := by
  induction ps generalizing i g r with
  | nil =>
    simp only [arrivals_completions, Option.some.injEq] at h
    subst h
    simp
  | cons p ps ih =>
    simp only [arrivals_completions] at h
    cases hc : completion_check t i (arrival_check t i p).1 g with
    | none => rw [hc] at h; simp at h
    | some q =>
      obtain ⟨p2, g2, e2⟩ := q
      rw [hc] at h
      simp only at h
      cases ha : arrivals_completions t (i + 1) ps g2 with
      | none => rw [ha] at h; simp at h
      | some ra =>
        rw [ha] at h
        simp only [Option.some.injEq] at h
        subst h
        intro x hx
        rcases List.mem_cons.1 hx with e | e
        · subst e
          exact completion_check_ok t i _ g _ hc
            (arrival_check_ok t i p (hp p (List.mem_cons_self _ _)))
        · exact ih (i + 1) g2 ra ha (fun z hz => hp z (List.mem_cons_of_mem _ hz)) x e

theorem placements_ok (ft : FitType) (t : Int) (i : Nat) (ps : List Process) (g : Globals)
    (r : List Process × Globals × List Event) (h : placements ft t i ps g = some r)
    (hp : ∀ p ∈ ps, procReady p) : ∀ p ∈ r.1, procReady p := by
  induction ps generalizing i g r with
  | nil =>
    simp only [placements, Option.some.injEq] at h
    subst h
    simp
  | cons p ps ih =>
    simp only [placements] at h
    cases hc : placement_check ft t i p g with
    | none => rw [hc] at h; simp at h
    | some q =>
      obtain ⟨p2, g2, e2⟩ := q
      rw [hc] at h
      simp only at h
      cases ha : placements ft t (i + 1) ps g2 with
      | none => rw [ha] at h; simp at h
      | some ra =>
        rw [ha] at h
        simp only [Option.some.injEq] at h
        subst h
        intro x hx
        rcases List.mem_cons.1 hx with e | e
        · subst e
          exact placement_check_ok ft t i p g _ hc (hp p (List.mem_cons_self _ _))
        · exact ih (i + 1) g2 ra ha (fun z hz => hp z (List.mem_cons_of_mem _ hz)) x e

theorem tick_ok (ft : FitType) (t : Int) (s : Sim) (r : Sim × List Event)
    (h : tick ft t s = some r) (hp : ∀ p ∈ s.process, procOk p) :
    ∀ p ∈ r.1.process, procOk p := by
  unfold tick at h
  cases h1 : arrivals_completions t 0 s.process s.globals with
  | none => rw [h1] at h; simp at h
  | some r1 =>
    obtain ⟨ps1, g1, e1⟩ := r1
    rw [h1] at h
    simp only at h
    cases h2 : placements ft t 0 ps1 g1 with
    | none => rw [h2] at h; simp at h
    | some r2 =>
      obtain ⟨ps2, g2, e2⟩ := r2
      rw [h2] at h
      simp only [Option.some.injEq] at h
      subst h
      have a := arrivals_completions_ok t 0 s.process s.globals _ h1 hp
      have b := placements_ok ft t 0 ps1 g1 _ h2 a
      intro x hx
      simp only [services, List.mem_map] at hx
      obtain ⟨y, hy, e⟩ := hx
      rw [← e]
      exact service_check_ok y (b y hy)

theorem run_ticks_ok (ft : FitType) (k : Nat) (s s2 : Sim) (h : run_ticks ft k s = some s2)
    (hp : ∀ p ∈ s.process, procOk p) : ∀ p ∈ s2.process, procOk p := by
  induction k generalizing s2 with
  | zero =>
    simp only [run_ticks, Option.some.injEq] at h
    subst h
    exact hp
  | succ k ih =>
    simp only [run_ticks] at h
    cases h1 : run_ticks ft k s with
    | none => rw [h1] at h; simp at h
    | some s1 =>
      rw [h1] at h
      simp only [Option.map_eq_some'] at h
      obtain ⟨r, hr, e⟩ := h
      rw [← e]
      exact tick_ok ft k s1 r hr (ih s1 h1)

theorem read_processes_ok (i : Nat) (input : List (Int × Int × Int))
    (hserv : ∀ x ∈ input, 1 ≤ x.2.2) : ∀ p ∈ read_processes i input, procOk p := by
  induction input generalizing i with
  | nil => simp [read_processes]
  | cons a rest ih =>
    obtain ⟨arrival, size, service⟩ := a
    intro p hp
    simp only [read_processes, List.mem_cons] at hp
    rcases hp with e | e
    · subst e
      have h1 : 1 ≤ service := hserv (arrival, size, service) (List.mem_cons_self _ _)
      exact ⟨by show 0 ≤ service; omega, fun _ => h1, Or.inl rfl⟩
    · exact ih (i + 1) (fun x hx => hserv x (List.mem_cons_of_mem _ hx)) p e

/-! ## Ownership of segments during the simulation -/

theorem int_ofNat_ne_hole (i : Nat) : (i : Int) ≠ HOLE := by
  unfold HOLE
  omega

theorem ownsFor_congr (i : Nat) (p : Process) (mem mem2 : List MemNode)
    (h : segsOf (i : Int) mem2 = segsOf (i : Int) mem) (ho : ownsFor i p mem) :
    ownsFor i p mem2 := by
  unfold ownsFor at ho ⊢
  rw [h]
  exact ho

theorem ownsFor_of_fields (i : Nat) (p p2 : Process) (mem : List MemNode)
    (hs : p2.status = p.status) (hz : p2.size = p.size) (ho : ownsFor i p mem) :
    ownsFor i p2 mem := by
  unfold ownsFor at ho ⊢
  rw [hs, hz]
  exact ho

theorem ownership_congr (i : Nat) (ps : List Process) (mem mem2 : List MemNode)
    (h : ∀ j, j < ps.length → segsOf ((i + j : Nat) : Int) mem2 = segsOf ((i + j : Nat) : Int) mem)
    (ho : ownership i ps mem) : ownership i ps mem2 := by
  induction ps generalizing i with
  | nil => exact trivial
  | cons p ps ih =>
    obtain ⟨h1, h2⟩ := ho
    refine ⟨ownsFor_congr i p mem mem2 (h 0 (by simp)) h1, ih (i + 1) ?_ h2⟩
    intro j hj
    have := h (j + 1) (by simp; omega)
    have e : i + (j + 1) = i + 1 + j := by omega
    rw [e] at this
    exact this

theorem ownership_iff (i : Nat) (ps : List Process) (mem : List MemNode) :
    ownership i ps mem ↔ ∀ (j : Nat) (p : Process), ps[j]? = some p → ownsFor (i + j) p mem := by
  induction ps generalizing i with
  | nil => simp [ownership]
  | cons a ps ih =>
    simp only [ownership, ih (i + 1)]
    constructor
    · rintro ⟨h1, h2⟩ j p hp
      cases j with
      | zero =>
        simp only [List.getElem?_cons_zero, Option.some.injEq] at hp
        subst hp
        exact h1
      | succ j =>
        have := h2 j p (by simpa using hp)
        have e : i + 1 + j = i + (j + 1) := by omega
        rw [e] at this
        exact this
    · intro h
      refine ⟨h 0 a (by simp), fun j p hp => ?_⟩
      have := h (j + 1) p (by simpa using hp)
      have e : i + (j + 1) = i + 1 + j := by omega
      rw [e] at this
      exact this

theorem ownership_zero_iff (ps : List Process) (mem : List MemNode) :
    ownership 0 ps mem ↔ ownsAll ps mem := by
  rw [ownership_iff]
  unfold ownsAll
  simp

theorem arrival_check_fields (t : Int) (i : Nat) (p : Process) :
    (arrival_check t i p).1.pid = p.pid ∧ (arrival_check t i p).1.size = p.size ∧
    ((arrival_check t i p).1.status = INMEMORY ↔ p.status = INMEMORY) := by
  unfold arrival_check
  split_ifs with hc
  · refine ⟨rfl, rfl, ?_⟩
    constructor
    · intro e
      exact absurd (show WAITING = INMEMORY from e) (by decide)
    · intro e
      rw [hc.2] at e
      exact absurd e (by decide)
  · exact ⟨rfl, rfl, Iff.rfl⟩

theorem arrival_check_owns (t : Int) (i : Nat) (p : Process) (mem : List MemNode)
    (ho : ownsFor i p mem) : ownsFor i (arrival_check t i p).1 mem := by
  obtain ⟨-, hz, hs⟩ := arrival_check_fields t i p
  unfold ownsFor at ho ⊢
  rw [hz]
  exact ⟨fun e => ho.1 (hs.1 e), fun e => ho.2 (fun e2 => e (hs.2 e2))⟩

/-- The completion check of a process that agrees with the memory list never
dereferences `NULL`: the segment to release exists and has a successor. -/
theorem completion_check_total (t : Int) (i : Nat) (p : Process) (g : Globals)
    (hok : procOk p) (hown : ownsFor i p g.memory) (hlast : lastFree g.memory) :
    ∃ p2 g2 e2, completion_check t i p g = some (p2, g2, e2) ∧
      ownsFor i p2 g2.memory ∧ lastFree g2.memory ∧ p2.pid = p.pid ∧
      (∀ k : Int, k ≠ HOLE → k ≠ (i : Int) → segsOf k g2.memory = segsOf k g.memory) := by
  by_cases hc : p.service = 0 ∧ p.status ≠ FINISHED
  · have hin : p.status = INMEMORY := by
      obtain ⟨-, h2, h3⟩ := hok
      rcases h3 with e | e | e | e
      · have := h2 (Or.inl e); omega
      · have := h2 (Or.inr e); omega
      · exact e
      · exact absurd e hc.2
    obtain ⟨x, hx, -⟩ := hown.1 hin
    have hxm : x ∈ segsOf (i : Int) g.memory := by rw [hx]; simp
    unfold segsOf at hxm
    rw [List.mem_filter] at hxm
    obtain ⟨hxmem, hxpid⟩ := hxm
    simp only [decide_eq_true_eq] at hxpid
    obtain ⟨j, hj⟩ := List.mem_iff_getElem?.1 hxmem
    obtain ⟨n, hn⟩ := occupied_has_next g.memory hlast j x hj
      (by rw [hxpid]; exact int_ofNat_ne_hole i)
    have hlen : 2 ≤ g.memory.length := by
      have : j + 1 < g.memory.length := by
        by_contra hcc
        rw [List.getElem?_eq_none_iff.2 (by omega)] at hn
        simp at hn
      omega
    obtain ⟨r, hr⟩ := release_completes (i : Int) g.memory ⟨x, hxmem, hxpid⟩ hlen
    have heq : completion_check t i p g =
        some ({ p with status := FINISHED }, ⟨r.1, r.2⟩,
          [⟨t, Message.FINISHED, (i : Int)⟩]) := by
      unfold completion_check
      rw [if_pos hc, hr]
    refine ⟨{ p with status := FINISHED }, ⟨r.1, r.2⟩, _, heq, ?_,
      lastFree_release _ _ r hr hlast, rfl,
      fun k hk hki => segsOf_release_other _ k _ r hr hk hki⟩
    constructor
    · intro e
      exact absurd (show FINISHED = INMEMORY from e) (by decide)
    · intro _
      show segsOf (i : Int) r.1 = []
      rw [segsOf_release_self _ _ r hr (int_ofNat_ne_hole i), hx]
      rfl
  · exact ⟨p, g, [], by unfold completion_check; rw [if_neg hc], hown, hlast, rfl,
      fun _ _ _ => rfl⟩

theorem arrivals_completions_total (t : Int) (i : Nat) (ps : List Process) (g : Globals)
    (hpid : pidsFrom i ps) (hok : ∀ p ∈ ps, procOk p) (hown : ownership i ps g.memory)
    (hlast : lastFree g.memory) :
    ∃ ps2 g2 es, arrivals_completions t i ps g = some (ps2, g2, es) ∧
      pidsFrom i ps2 ∧ ownership i ps2 g2.memory ∧ lastFree g2.memory ∧
      (∀ k : Int, k ≠ HOLE → (∀ j, j < ps.length → k ≠ ((i + j : Nat) : Int)) →
        segsOf k g2.memory = segsOf k g.memory) := by
  induction ps generalizing i g with
  | nil => exact ⟨[], g, [], rfl, trivial, trivial, hlast, fun _ _ _ => rfl⟩
  | cons p ps ih =>
    obtain ⟨hp1, hp2⟩ := hpid
    obtain ⟨ho1, ho2⟩ := hown
    obtain ⟨hf1, -, -⟩ := arrival_check_fields t i p
    obtain ⟨p2, g2, e2, hc, hc1, hc2, hc3, hc4⟩ :=
      completion_check_total t i (arrival_check t i p).1 g
        (arrival_check_ok t i p (hok p (List.mem_cons_self _ _)))
        (arrival_check_owns t i p g.memory ho1) hlast
    have hown2 : ownership (i + 1) ps g2.memory := by
      refine ownership_congr (i + 1) ps g.memory g2.memory ?_ ho2
      intro j _
      exact hc4 _ (int_ofNat_ne_hole _) (by push_cast; omega)
    obtain ⟨ps3, g3, es, hr, hr1, hr2, hr3, hr4⟩ :=
      ih (i + 1) g2 hp2 (fun z hz => hok z (List.mem_cons_of_mem _ hz)) hown2 hc2
    refine ⟨p2 :: ps3, g3, (arrival_check t i p).2 ++ e2 ++ es, ?_, ⟨?_, hr1⟩, ⟨?_, hr2⟩,
      hr3, ?_⟩
    · simp only [arrivals_completions, hc, hr]
    · rw [hc3, hf1]; exact hp1
    · refine ownsFor_congr i p2 g2.memory g3.memory ?_ hc1
      exact hr4 _ (int_ofNat_ne_hole _) (fun j _ => by push_cast; omega)
    · intro k hk hj
      have h0 := hj 0 (by simp)
      rw [hr4 k hk (fun j hjl => by
        have := hj (j + 1) (by simp; omega)
        have e : i + (j + 1) = i + 1 + j := by omega
        rw [e] at this
        exact this)]
      exact hc4 k hk (by simpa using h0)

theorem placement_check_total (ft : FitType) (hft : ft ≠ FitType.w) (t : Int) (i : Nat)
    (p : Process) (g : Globals) (hpid : p.pid = (i : Int)) (hown : ownsFor i p g.memory)
    (hlast : lastFree g.memory) :
    ∃ p2 g2 e2, placement_check ft t i p g = some (p2, g2, e2) ∧
      ownsFor i p2 g2.memory ∧ lastFree g2.memory ∧ p2.pid = p.pid ∧
      (∀ k : Int, k ≠ HOLE → k ≠ (i : Int) → segsOf k g2.memory = segsOf k g.memory) := by
  rcases placement_check_cases ft hft t i p g with
    ⟨m, x, r, hw, hx, hfree, -, hins, hpc⟩ | ⟨last2, hpc⟩
  · have hni : p.status ≠ INMEMORY := by
      rw [hw]; decide
    have hnone : segsOf p.pid g.memory = [] := by
      rw [hpid]; exact hown.2 hni
    have hph : p.pid ≠ HOLE := by
      rw [hpid]; exact int_ofNat_ne_hole i
    have hself := segsOf_insert_self p g.memory m x r hx hfree hins hph hnone
    refine ⟨_, _, _, hpc, ⟨fun _ => ⟨⟨p.pid, x.start, p.size⟩, ?_, rfl⟩, fun e => ?_⟩, ?_, rfl,
      ?_⟩
    · show segsOf (i : Int) r.1 = _
      rw [← hpid]; exact hself
    · exact absurd rfl e
    · show lastFree r.1
      unfold lastFree at hlast ⊢
      rw [lastPid_insert p g.memory m r hins]
      exact hlast
    · intro k hk hki
      exact segsOf_insert_other p g.memory m x r hx hfree hins k hk (by rw [hpid]; exact hki)
  · exact ⟨_, _, _, hpc, hown, hlast, rfl, fun _ _ _ => rfl⟩

theorem placements_total (ft : FitType) (hft : ft ≠ FitType.w) (t : Int) (i : Nat)
    (ps : List Process) (g : Globals) (hpid : pidsFrom i ps)
    (hown : ownership i ps g.memory) (hlast : lastFree g.memory) :
    ∃ ps2 g2 es, placements ft t i ps g = some (ps2, g2, es) ∧
      pidsFrom i ps2 ∧ ownership i ps2 g2.memory ∧ lastFree g2.memory ∧
      (∀ k : Int, k ≠ HOLE → (∀ j, j < ps.length → k ≠ ((i + j : Nat) : Int)) →
        segsOf k g2.memory = segsOf k g.memory) := by
  induction ps generalizing i g with
  | nil => exact ⟨[], g, [], rfl, trivial, trivial, hlast, fun _ _ _ => rfl⟩
  | cons p ps ih =>
    obtain ⟨hp1, hp2⟩ := hpid
    obtain ⟨ho1, ho2⟩ := hown
    obtain ⟨p2, g2, e2, hc, hc1, hc2, hc3, hc4⟩ :=
      placement_check_total ft hft t i p g hp1 ho1 hlast
    have hown2 : ownership (i + 1) ps g2.memory := by
      refine ownership_congr (i + 1) ps g.memory g2.memory ?_ ho2
      intro j _
      exact hc4 _ (int_ofNat_ne_hole _) (by push_cast; omega)
    obtain ⟨ps3, g3, es, hr, hr1, hr2, hr3, hr4⟩ := ih (i + 1) g2 hp2 hown2 hc2
    refine ⟨p2 :: ps3, g3, e2 ++ es, ?_, ⟨?_, hr1⟩, ⟨?_, hr2⟩, hr3, ?_⟩
    · simp only [placements, hc, hr]
    · rw [hc3]; exact hp1
    · refine ownsFor_congr i p2 g2.memory g3.memory ?_ hc1
      exact hr4 _ (int_ofNat_ne_hole _) (fun j _ => by push_cast; omega)
    · intro k hk hj
      have h0 := hj 0 (by simp)
      rw [hr4 k hk (fun j hjl => by
        have := hj (j + 1) (by simp; omega)
        have e : i + (j + 1) = i + 1 + j := by omega
        rw [e] at this
        exact this)]
      exact hc4 k hk (by simpa using h0)

theorem service_check_fields (p : Process) :
    (service_check p).pid = p.pid ∧ (service_check p).size = p.size ∧
    (service_check p).status = p.status := by
  unfold service_check
  split_ifs
  · exact ⟨rfl, rfl, rfl⟩
  · exact ⟨rfl, rfl, rfl⟩

theorem services_owns (i : Nat) (ps : List Process) (mem : List MemNode)
    (hpid : pidsFrom i ps) (hown : ownership i ps mem) :
    pidsFrom i (services ps) ∧ ownership i (services ps) mem := by
  induction ps generalizing i with
  | nil => exact ⟨trivial, trivial⟩
  | cons p ps ih =>
    obtain ⟨hp1, hp2⟩ := hpid
    obtain ⟨ho1, ho2⟩ := hown
    obtain ⟨f1, f2, f3⟩ := service_check_fields p
    obtain ⟨a, b⟩ := ih (i + 1) hp2 ho2
    exact ⟨⟨by rw [f1]; exact hp1, a⟩, ⟨ownsFor_of_fields i p _ mem f3 f2 ho1, b⟩⟩

theorem read_processes_pids (i : Nat) (input : List (Int × Int × Int)) :
    pidsFrom i (read_processes i input) := by
  induction input generalizing i with
  | nil => exact trivial
  | cons a rest ih =>
    obtain ⟨arrival, size, service⟩ := a
    exact ⟨rfl, ih (i + 1)⟩

theorem read_processes_owns (i : Nat) (input : List (Int × Int × Int)) :
    ownership i (read_processes i input) [⟨HOLE, 0, MEMSIZE⟩] := by
  induction input generalizing i with
  | nil => exact trivial
  | cons a rest ih =>
    obtain ⟨arrival, size, service⟩ := a
    refine ⟨⟨fun e => ?_, fun _ => ?_⟩, ih (i + 1)⟩
    · exact absurd (show NOTARRIVED = INMEMORY from e) (by decide)
    · exact segsOf_eq_nil _ _ (fun x hx => by
        simp only [List.mem_singleton] at hx
        subst hx
        exact fun e => int_ofNat_ne_hole i e.symm)

theorem init_sim_inv (input : List (Int × Int × Int)) (hserv : ∀ x ∈ input, 1 ≤ x.2.2) :
    SimInv (init_sim input) := by
  refine ⟨read_processes_pids 0 input, read_processes_ok 0 input hserv,
    read_processes_owns 0 input, ?_⟩
  show lastFree [⟨HOLE, 0, MEMSIZE⟩]
  decide

/-- One tick from a state that satisfies the invariant: all three loops
complete, the ownership relation holds after each of them, and the invariant
holds again at the end. -/
theorem tick_total (ft : FitType) (hft : ft ≠ FitType.w) (t : Int) (s : Sim)
    (hinv : SimInv s) :
    ∃ ps1 g1 e1 ps2 g2 e2,
      arrivals_completions t 0 s.process s.globals = some (ps1, g1, e1) ∧
      ownership 0 ps1 g1.memory ∧
      placements ft t 0 ps1 g1 = some (ps2, g2, e2) ∧
      ownership 0 ps2 g2.memory ∧
      tick ft t s = some (⟨services ps2, g2⟩, e1 ++ e2) ∧
      SimInv ⟨services ps2, g2⟩ := by
  obtain ⟨hpid, hok, hown, hlast⟩ := hinv
  obtain ⟨ps1, g1, e1, h1, a1, a2, a3, -⟩ :=
    arrivals_completions_total t 0 s.process s.globals hpid hok hown hlast
  obtain ⟨ps2, g2, e2, h2, b1, b2, b3, -⟩ := placements_total ft hft t 0 ps1 g1 a1 a2 a3
  have htick : tick ft t s = some (⟨services ps2, g2⟩, e1 ++ e2) := by
    simp only [tick, h1, h2]
  obtain ⟨c1, c2⟩ := services_owns 0 ps2 g2.memory b1 b2
  exact ⟨ps1, g1, e1, ps2, g2, e2, h1, a2, h2, b2, htick, c1,
    tick_ok ft t s _ htick hok, c2, b3⟩

theorem run_ticks_total (ft : FitType) (hft : ft ≠ FitType.w) (input : List (Int × Int × Int))
    (hserv : ∀ x ∈ input, 1 ≤ x.2.2) (k : Nat) :
    ∃ s, run_ticks ft k (init_sim input) = some s ∧ SimInv s := by
  induction k with
  | zero => exact ⟨init_sim input, rfl, init_sim_inv input hserv⟩
  | succ k ih =>
    obtain ⟨s, hs, hinv⟩ := ih
    obtain ⟨ps1, g1, e1, ps2, g2, e2, -, -, -, -, htick, hinv2⟩ :=
      tick_total ft hft (k : Int) s hinv
    exact ⟨⟨services ps2, g2⟩, by simp only [run_ticks, hs, htick, Option.map_some'], hinv2⟩

/-- C15: for a workload in which every service time is at least 1, after any
number of ticks (with any strategy) no process has a negative remaining service
time; with first, next or best fit the run of any number of ticks completes. -/
theorem service_never_negative (input : List (Int × Int × Int))
    (hserv : ∀ x ∈ input, 1 ≤ x.2.2) :
    (∀ (ft : FitType) (k : Nat) (s : Sim), run_ticks ft k (init_sim input) = some s →
      ∀ p ∈ s.process, 0 ≤ p.service) ∧
    (∀ (ft : FitType), ft ≠ FitType.w → ∀ k : Nat,
      ∃ s, run_ticks ft k (init_sim input) = some s) := by
  constructor
  · intro ft k s hrun p hp
    exact (run_ticks_ok ft k (init_sim input) s hrun (read_processes_ok 0 input hserv) p hp).1
  · intro ft hft k
    obtain ⟨s, hs, -⟩ := run_ticks_total ft hft input hserv k
    exact ⟨s, hs⟩

/-- C15 witness: after 4 ticks of first fit on `inputTwo` process 0 is finished
with service 0 and process 1 is in memory with service 1. -/
theorem service_never_negative_witness :
    run_ticks FitType.f 4 (init_sim inputTwo) =
      some ⟨[⟨0, 0, 40, 0, FINISHED⟩, ⟨1, 0, 70, 1, INMEMORY⟩],
        ⟨[⟨1, 0, 70⟩, ⟨HOLE, 70, 30⟩], 0⟩⟩ ∧
    (0 : Int) ≤ (⟨0, 0, 40, 0, FINISHED⟩ : Process).service ∧
    (0 : Int) ≤ (⟨1, 0, 70, 1, INMEMORY⟩ : Process).service :=
  ⟨by decide,
   (service_never_negative inputTwo (by decide)).1 FitType.f 4
     ⟨[⟨0, 0, 40, 0, FINISHED⟩, ⟨1, 0, 70, 1, INMEMORY⟩],
       ⟨[⟨1, 0, 70⟩, ⟨HOLE, 70, 30⟩], 0⟩⟩ (by decide) ⟨0, 0, 40, 0, FINISHED⟩ (by decide),
   (service_never_negative inputTwo (by decide)).1 FitType.f 4
     ⟨[⟨0, 0, 40, 0, FINISHED⟩, ⟨1, 0, 70, 1, INMEMORY⟩],
       ⟨[⟨1, 0, 70⟩, ⟨HOLE, 70, 30⟩], 0⟩⟩ (by decide) ⟨1, 0, 70, 1, INMEMORY⟩ (by decide)⟩

/-- C17: with first, next or best fit on a workload whose service times are
all at least 1, every tick completes, and at the start of the tick, after the
first loop, after the placement loop and after the service loop every pid
owns a segment if and only if its process is `INMEMORY`, and then exactly one,
of the size of the process; in particular every `release(i)` of the first loop
finds its segment. -/
theorem ownership_invariant (ft : FitType) (hft : ft ≠ FitType.w)
    (input : List (Int × Int × Int)) (hserv : ∀ x ∈ input, 1 ≤ x.2.2) (k : Nat) :
    ∃ s ps1 g1 e1 ps2 g2 e2,
      run_ticks ft k (init_sim input) = some s ∧
      ownsAll s.process s.globals.memory ∧
      arrivals_completions (k : Int) 0 s.process s.globals = some (ps1, g1, e1) ∧
      ownsAll ps1 g1.memory ∧
      placements ft (k : Int) 0 ps1 g1 = some (ps2, g2, e2) ∧
      ownsAll ps2 g2.memory ∧
      ownsAll (services ps2) g2.memory ∧
      run_ticks ft (k + 1) (init_sim input) = some ⟨services ps2, g2⟩ := by
  obtain ⟨s, hs, hinv⟩ := run_ticks_total ft hft input hserv k
  obtain ⟨ps1, g1, e1, ps2, g2, e2, h1, a2, h2, b2, htick, hinv2⟩ :=
    tick_total ft hft (k : Int) s hinv
  refine ⟨s, ps1, g1, e1, ps2, g2, e2, hs, (ownership_zero_iff _ _).1 hinv.2.2.1, h1,
    (ownership_zero_iff _ _).1 a2, h2, (ownership_zero_iff _ _).1 b2,
    (ownership_zero_iff _ _).1 hinv2.2.2.1, ?_⟩
  simp only [run_ticks, hs, htick, Option.map_some']

/-- C17 witness: tick 3 of best fit on the 50 processes of `inputStaggered`. -/
theorem ownership_invariant_witness :
    ∃ s ps1 g1 e1 ps2 g2 e2,
      run_ticks FitType.b 3 (init_sim inputStaggered) = some s ∧
      ownsAll s.process s.globals.memory ∧
      arrivals_completions ((3 : Nat) : Int) 0 s.process s.globals = some (ps1, g1, e1) ∧
      ownsAll ps1 g1.memory ∧
      placements FitType.b ((3 : Nat) : Int) 0 ps1 g1 = some (ps2, g2, e2) ∧
      ownsAll ps2 g2.memory ∧
      ownsAll (services ps2) g2.memory ∧
      run_ticks FitType.b (3 + 1) (init_sim inputStaggered) = some ⟨services ps2, g2⟩ :=
  ownership_invariant FitType.b (by decide) inputStaggered (by decide) 3

/-! ## Final summary -/

theorem wrap32_id (x : Int) (h1 : -2147483648 ≤ x) (h2 : x < 2147483648) : wrap32 x = x := by
  unfold wrap32
  omega

theorem service_sum_nonneg (ps : List Process) (h0 : ∀ p ∈ ps, 0 ≤ p.service) :
    0 ≤ (ps.map (fun p => p.service)).sum := by
  induction ps with
  | nil => simp
  | cons a rest ih =>
    have ha := h0 a (List.mem_cons_self _ _)
    have hr := ih (fun p hp => h0 p (List.mem_cons_of_mem _ hp))
    simp only [List.map_cons, List.sum_cons]
    omega

theorem foldl_wrap_eq (ps : List Process) (acc : Int) (h0 : ∀ p ∈ ps, 0 ≤ p.service)
    (hacc : 0 ≤ acc) (hsum : acc + (ps.map (fun p => p.service)).sum < 2147483648) :
    ps.foldl (fun total p => wrap32 (total + p.service)) acc =
      acc + (ps.map (fun p => p.service)).sum := by
  induction ps generalizing acc with
  | nil => simp
  | cons a rest ih =>
    have ha := h0 a (List.mem_cons_self _ _)
    have hr := service_sum_nonneg rest (fun p hp => h0 p (List.mem_cons_of_mem _ hp))
    simp only [List.map_cons, List.sum_cons] at hsum
    have hw : wrap32 (acc + a.service) = acc + a.service := wrap32_id _ (by omega) (by omega)
    simp only [List.foldl_cons, List.map_cons, List.sum_cons]
    rw [hw, ih (acc + a.service) (fun p hp => h0 p (List.mem_cons_of_mem _ hp)) (by omega)
      (by omega)]
    omega

theorem total_service_eq (ps : List Process) (h0 : ∀ p ∈ ps, 0 ≤ p.service)
    (hsum : (ps.map (fun p => p.service)).sum < 2147483648) :
    total_service ps = (ps.map (fun p => p.service)).sum := by
  unfold total_service
  rw [foldl_wrap_eq ps 0 h0 (le_refl _) (by omega)]
  omega

theorem read_processes_services (i : Nat) (input : List (Int × Int × Int)) :
    (read_processes i input).map (fun p => p.service) = input.map (fun x => x.2.2) := by
  induction input generalizing i with
  | nil => rfl
  | cons a rest ih =>
    obtain ⟨arrival, size, service⟩ := a
    simp only [read_processes, List.map_cons, ih (i + 1)]

theorem input_sum_pos (input : List (Int × Int × Int)) (hne : input ≠ [])
    (hserv : ∀ x ∈ input, 1 ≤ x.2.2) : 0 < (input.map (fun x => x.2.2)).sum := by
  induction input with
  | nil => exact absurd rfl hne
  | cons a rest ih =>
    have h1 := hserv a (List.mem_cons_self _ _)
    simp only [List.map_cons, List.sum_cons]
    cases rest with
    | nil => simp only [List.map_nil, List.sum_nil]; omega
    | cons b rest2 =>
      have := ih (by simp) (fun x hx => hserv x (List.mem_cons_of_mem _ hx))
      omega

theorem arrival_check_service (t : Int) (i : Nat) (p : Process) :
    (arrival_check t i p).1.service = p.service := by
  unfold arrival_check
  split_ifs <;> rfl

theorem completion_check_service (t : Int) (i : Nat) (p : Process) (g : Globals)
    (r : Process × Globals × List Event) (h : completion_check t i p g = some r) :
    r.1.service = p.service := by
  unfold completion_check at h
  split_ifs at h
  · cases hrel : release (i : Int) g.memory with
    | none => rw [hrel] at h; simp at h
    | some q =>
      rw [hrel] at h
      simp only [Option.some.injEq] at h
      subst h
      rfl
  · simp only [Option.some.injEq] at h
    subst h
    rfl

theorem placement_check_service (ft : FitType) (t : Int) (i : Nat) (p : Process) (g : Globals)
    (r : Process × Globals × List Event) (h : placement_check ft t i p g = some r) :
    r.1.service = p.service := by
  by_cases hw : p.status = WAITING
  · simp only [placement_check, hw, if_true] at h
    generalize (if ft = FitType.n then g.last_location else 0) = start at h
    cases hfit : fit_algorithm ft p g.memory start g.last_location with
    | none => rw [hfit] at h; simp at h
    | some q =>
      obtain ⟨res, last⟩ := q
      rw [hfit] at h
      cases res with
      | none =>
        simp only [Option.some.injEq] at h
        subst h
        rfl
      | some m =>
        simp only at h
        cases hins : insert p g.memory m with
        | none => rw [hins] at h; simp at h
        | some q2 =>
          rw [hins] at h
          simp only [Option.some.injEq] at h
          subst h
          rfl
  · simp only [placement_check, hw, if_false, Option.some.injEq] at h
    subst h
    rfl

theorem arrivals_completions_services (t : Int) (i : Nat) (ps : List Process) (g : Globals)
    (r : List Process × Globals × List Event) (h : arrivals_completions t i ps g = some r) :
    r.1.map (fun p => p.service) = ps.map (fun p => p.service) := by
  induction ps generalizing i g r with
  | nil =>
    simp only [arrivals_completions, Option.some.injEq] at h
    subst h
    rfl
  | cons p ps ih =>
    simp only [arrivals_completions] at h
    cases hc : completion_check t i (arrival_check t i p).1 g with
    | none => rw [hc] at h; simp at h
    | some q =>
      obtain ⟨p2, g2, e2⟩ := q
      rw [hc] at h
      simp only at h
      cases ha : arrivals_completions t (i + 1) ps g2 with
      | none => rw [ha] at h; simp at h
      | some ra =>
        rw [ha] at h
        simp only [Option.some.injEq] at h
        subst h
        have h1 : p2.service = p.service := by
          have := completion_check_service t i _ g _ hc
          rw [arrival_check_service] at this
          exact this
        simp only [List.map_cons, h1, ih (i + 1) g2 ra ha]

theorem placements_services (ft : FitType) (t : Int) (i : Nat) (ps : List Process)
    (g : Globals) (r : List Process × Globals × List Event)
    (h : placements ft t i ps g = some r) :
    r.1.map (fun p => p.service) = ps.map (fun p => p.service) := by
  induction ps generalizing i g r with
  | nil =>
    simp only [placements, Option.some.injEq] at h
    subst h
    rfl
  | cons p ps ih =>
    simp only [placements] at h
    cases hc : placement_check ft t i p g with
    | none => rw [hc] at h; simp at h
    | some q =>
      obtain ⟨p2, g2, e2⟩ := q
      rw [hc] at h
      simp only at h
      cases ha : placements ft t (i + 1) ps g2 with
      | none => rw [ha] at h; simp at h
      | some ra =>
        rw [ha] at h
        simp only [Option.some.injEq] at h
        subst h
        have h1 : p2.service = p.service := placement_check_service ft t i p g _ hc
        simp only [List.map_cons, h1, ih (i + 1) g2 ra ha]

theorem services_sum_le (ps : List Process) :
    ((services ps).map (fun p => p.service)).sum ≤ (ps.map (fun p => p.service)).sum := by
  induction ps with
  | nil => simp [services]
  | cons a rest ih =>
    have ha : (service_check a).service ≤ a.service := by
      unfold service_check
      split_ifs
      · show a.service - 1 ≤ a.service
        omega
      · exact le_refl _
    have ih2 : ((rest.map service_check).map (fun p => p.service)).sum ≤
        (rest.map (fun p => p.service)).sum := ih
    simp only [services, List.map_cons, List.sum_cons]
    omega

theorem tick_sum_le (ft : FitType) (t : Int) (s : Sim) (r : Sim × List Event)
    (h : tick ft t s = some r) :
    (r.1.process.map (fun p => p.service)).sum ≤ (s.process.map (fun p => p.service)).sum := by
  unfold tick at h
  cases h1 : arrivals_completions t 0 s.process s.globals with
  | none => rw [h1] at h; simp at h
  | some r1 =>
    obtain ⟨ps1, g1, e1⟩ := r1
    rw [h1] at h
    simp only at h
    cases h2 : placements ft t 0 ps1 g1 with
    | none => rw [h2] at h; simp at h
    | some r2 =>
      obtain ⟨ps2, g2, e2⟩ := r2
      rw [h2] at h
      simp only [Option.some.injEq] at h
      subst h
      have a := arrivals_completions_services t 0 s.process s.globals _ h1
      have b := placements_services ft t 0 ps1 g1 _ h2
      have c := services_sum_le ps2
      simp only at a b
      show ((services ps2).map (fun p => p.service)).sum ≤ _
      rw [← a, ← b]
      exact c

theorem run_ticks_sum_le (ft : FitType) (k : Nat) (s s2 : Sim)
    (h : run_ticks ft k s = some s2) :
    (s2.process.map (fun p => p.service)).sum ≤ (s.process.map (fun p => p.service)).sum := by
  induction k generalizing s2 with
  | zero =>
    simp only [run_ticks, Option.some.injEq] at h
    subst h
    exact le_refl _
  | succ k ih =>
    simp only [run_ticks] at h
    cases h1 : run_ticks ft k s with
    | none => rw [h1] at h; simp at h
    | some s1 =>
      rw [h1] at h
      simp only [Option.map_eq_some'] at h
      obtain ⟨r, hr, e⟩ := h
      rw [← e]
      exact le_trans (tick_sum_le ft k s1 r hr) (ih s1 h1)

set_option maxRecDepth 1000000 in
/-- C16 (as stated, refuted): for the 50 processes of `inputZeroService` the
total required service is 0 and the run of `TOTALTIME` ticks with first fit
completes with total unserviced time -2525; the final division then has a zero
divisor and yields no result, so no percentage (and in particular not 0) is
reported. -/
theorem summary_divides_by_zero :
    total_service (read_processes 0 inputZeroService) = 0 ∧
    (run_ticks FitType.f TOTALTIME (init_sim inputZeroService)).map
      (fun s => total_service s.process) = some (-2525) ∧
    percent_unserviced (-2525) 0 = none ∧
    summary FitType.f inputZeroService = none := by
  decide

/-- C16 (amended): the summary reports the total unserviced time of the state
after `TOTALTIME` ticks, the total required service of the input, and as
percent the quotient `unserviced * 100 / required_service` of 32-bit `int`
arithmetic, truncated toward zero.  The division is not guarded: when the total
required service is 0 there is no result.  For a non-empty workload with every
service time at least 1 and `required * 100` within the `int` range, run with
first, next or best fit, the run completes, nothing wraps around, and the
reported percent `q` satisfies
`q * required ≤ unserviced * 100 < (q + 1) * required`. -/
theorem summary_spec (ft : FitType) (input : List (Int × Int × Int)) :
    (total_service (read_processes 0 input) = 0 → summary ft input = none) ∧
    (∀ u r q, summary ft input = some (u, r, q) →
      ∃ s, run_ticks ft TOTALTIME (init_sim input) = some s ∧
        u = total_service s.process ∧ r = total_service (read_processes 0 input) ∧
        r ≠ 0 ∧ q = Int.tdiv (wrap32 (u * 100)) r) ∧
    (ft ≠ FitType.w → input ≠ [] → (∀ x ∈ input, 1 ≤ x.2.2) →
      (input.map (fun x => x.2.2)).sum * 100 < 2147483648 →
      ∃ s q, run_ticks ft TOTALTIME (init_sim input) = some s ∧
        summary ft input =
          some ((s.process.map (fun p => p.service)).sum,
            (input.map (fun x => x.2.2)).sum, q) ∧
        0 ≤ (s.process.map (fun p => p.service)).sum ∧
        (s.process.map (fun p => p.service)).sum ≤ (input.map (fun x => x.2.2)).sum ∧
        0 < (input.map (fun x => x.2.2)).sum ∧
        q * (input.map (fun x => x.2.2)).sum ≤
          (s.process.map (fun p => p.service)).sum * 100 ∧
        (s.process.map (fun p => p.service)).sum * 100 <
          (q + 1) * (input.map (fun x => x.2.2)).sum) := by
  refine ⟨?_, ?_, ?_⟩
  · intro h0
    unfold summary
    cases run_ticks ft TOTALTIME (init_sim input) with
    | none => rfl
    | some s => simp [percent_unserviced, h0]
  · intro u r q h
    unfold summary at h
    cases hrun : run_ticks ft TOTALTIME (init_sim input) with
    | none => rw [hrun] at h; simp at h
    | some s =>
      rw [hrun] at h
      simp only at h
      cases hp : percent_unserviced (total_service s.process)
          (total_service (read_processes 0 input)) with
      | none => rw [hp] at h; simp at h
      | some pct =>
        rw [hp] at h
        simp only [Option.some.injEq, Prod.mk.injEq] at h
        obtain ⟨hu, hr, hq⟩ := h
        unfold percent_unserviced at hp
        split_ifs at hp with h1 h2
        simp only [Option.some.injEq] at hp
        refine ⟨s, rfl, hu.symm, hr.symm, ?_, ?_⟩
        · rw [← hr]; exact h1
        · rw [← hq, ← hu, ← hr]; exact hp.symm
  · intro hft hne hserv hrange
    obtain ⟨s, hrun, hinv⟩ := run_ticks_total ft hft input hserv TOTALTIME
    have h0 : ∀ p ∈ s.process, 0 ≤ p.service := fun p hp => (hinv.2.1 p hp).1
    have hU0 := service_sum_nonneg s.process h0
    have hle := run_ticks_sum_le ft TOTALTIME (init_sim input) s hrun
    have hinit : ((init_sim input).process.map (fun p => p.service)) =
        input.map (fun x => x.2.2) := read_processes_services 0 input
    rw [hinit] at hle
    have hRpos := input_sum_pos input hne hserv
    have hreq : total_service (read_processes 0 input) = (input.map (fun x => x.2.2)).sum := by
      rw [total_service_eq _ (fun p hp => (read_processes_ok 0 input hserv p hp).1),
        read_processes_services]
      rw [read_processes_services]
      omega
    have huns : total_service s.process = (s.process.map (fun p => p.service)).sum :=
      total_service_eq _ h0 (by omega)
    have hwrap : wrap32 ((s.process.map (fun p => p.service)).sum * 100) =
        (s.process.map (fun p => p.service)).sum * 100 := wrap32_id _ (by omega) (by omega)
    have hRne : (input.map (fun x => x.2.2)).sum ≠ 0 := by omega
    have hR1 : ¬ ((input.map (fun x => x.2.2)).sum = -1) := by omega
    refine ⟨s, Int.tdiv ((s.process.map (fun p => p.service)).sum * 100)
      (input.map (fun x => x.2.2)).sum, hrun, ?_, hU0, hle, hRpos, ?_, ?_⟩
    · unfold summary
      rw [hrun]
      simp only [hreq, huns, percent_unserviced, hwrap, hRne, hR1, if_false, and_false]
    · rw [Int.tdiv_eq_ediv (by omega) (by omega)]
      exact Int.ediv_mul_le _ hRne
    · rw [Int.tdiv_eq_ediv (by omega) (by omega)]
      exact Int.lt_ediv_add_one_mul_self _ hRpos

set_option maxRecDepth 1000000 in
/-- C16 witness: first fit on the 50 processes of `inputStaggered` leaves 48 of
51 units of service unserviced, reported as 94 percent; on `inputLongService`
the product `50000000 * 100` wraps around and 14 percent is reported for a
workload of which nothing was serviced. -/
theorem summary_spec_witness :
    summary FitType.f inputStaggered = some (48, 51, 94) ∧
    (∃ s q, run_ticks FitType.f TOTALTIME (init_sim inputStaggered) = some s ∧
      summary FitType.f inputStaggered =
        some ((s.process.map (fun p => p.service)).sum,
          (inputStaggered.map (fun x => x.2.2)).sum, q) ∧
      0 ≤ (s.process.map (fun p => p.service)).sum ∧
      (s.process.map (fun p => p.service)).sum ≤ (inputStaggered.map (fun x => x.2.2)).sum ∧
      0 < (inputStaggered.map (fun x => x.2.2)).sum ∧
      q * (inputStaggered.map (fun x => x.2.2)).sum ≤
        (s.process.map (fun p => p.service)).sum * 100 ∧
      (s.process.map (fun p => p.service)).sum * 100 <
        (q + 1) * (inputStaggered.map (fun x => x.2.2)).sum) ∧
    summary FitType.f inputLongService = some (50000000, 50000000, 14) :=
  ⟨by decide,
   (summary_spec FitType.f inputStaggered).2.2 (by decide) (by decide) (by decide)
     (by decide),
   by decide⟩

end Fit
